import Mathlib

/-!
Verification of the LedgerFlow personal-finance engine.

This file gives a shallow embedding of the pure ledger engine
(`src/services/ledgerService.ts` in the repository): the data model, the
balance aggregator, the account-tree queries, the CSV transaction codec and
the recurring-transaction scheduler, together with theorems settling the
frozen claims about them.

Modelling conventions:
- TS strings are Lean `String` (compared by UTF code points, matching the
  JS `<=` comparison on the BMP strings the engine uses); string scanning
  code is embedded over `List Char` via `String.data`.
- JS numbers holding integral amounts and timestamps are `Int` / `Nat`.
- Optional TS fields (`payee?: string`) are `Option`.
- Functions whose TS source loops unboundedly (the descendant walk, the
  recursive subtree balance) take an explicit fuel argument; exhausting the
  fuel models nontermination of the source and every theorem supplies
  enough fuel for the fuel case to be unreachable.
- Ambient effects read inside `processDueRecurringTransactions`
  (`new Date()`, `Date.now()`, `Math.random()` via `generateId`) are passed
  as explicit `today` / `now` / `idGen` parameters; date arithmetic is
  modelled in UTC calendar terms.
-/

namespace LedgerFlow

/-- `AccountType` from `src/types.ts`. -/
inductive AccountType where
  | asset
  | liability
  | income
  | expense
  | equity
  deriving DecidableEq, Repr

/-- `Account` from `src/types.ts` (the transient `children` rendering field
is omitted; the engine recomputes children from `parentId`). -/
structure Account where
  id : String
  parentId : Option String
  name : String
  type : AccountType
  budget : Option Int := none
  deriving DecidableEq, Repr

/-- `Split` from `src/types.ts`. -/
structure Split where
  accountId : String
  amount : Int
  deriving DecidableEq, Repr

/-- `Transaction` from `src/types.ts`; `payee` and `description` are
optional there, hence `Option String`. -/
structure Transaction where
  id : String
  date : String
  payee : Option String := none
  description : Option String := none
  splits : List Split
  createdAt : Nat
  deriving DecidableEq, Repr

/-- `Frequency` from `src/types.ts`. -/
inductive Frequency where
  | daily
  | weekly
  | monthly
  | yearly
  deriving DecidableEq, Repr

/-- `RecurringTransaction` from `src/types.ts`. -/
structure RecurringTransaction where
  id : String
  frequency : Frequency
  nextDueDate : String
  payee : String
  description : String
  splits : List Split
  lastRun : Option String := none
  active : Bool
  deriving DecidableEq, Repr

/-- `FlattenedAccountBalance` from `src/types.ts`. -/
structure FlattenedAccountBalance where
  id : String
  name : String
  type : AccountType
  balance : Int
  budget : Int
  deriving DecidableEq, Repr

/-! ## String order and numerals

JS compares strings with `<=` by UTF-16 code units and prints / reads
integral numbers in decimal.  The engine relies on both (ISO date
comparison, CSV amount round-trip), so we embed them. -/

/-- Lexicographic `<=` on char lists by code point: the JS string `<=`
used in `activeItem.nextDueDate <= today`. -/
def charListLe : List Char → List Char → Bool
  | [], _ => true
  | _ :: _, [] => false
  | a :: as, b :: bs =>
    if a.val < b.val then true
    else if b.val < a.val then false
    else charListLe as bs

/-- JS `<=` on strings. -/
def strLe (a b : String) : Bool :=
  charListLe a.data b.data

/-- Decimal digit to its character. -/
def digitChar : Nat → Char
  | 0 => '0'
  | 1 => '1'
  | 2 => '2'
  | 3 => '3'
  | 4 => '4'
  | 5 => '5'
  | 6 => '6'
  | 7 => '7'
  | 8 => '8'
  | 9 => '9'
  | _ => '?'

/-- Decimal digits of `n`, most significant first; the fuel (first
argument) makes the recursion structural, `n < fuel` is always enough. -/
def natDigitsAux : Nat → Nat → List Nat
  | 0, _ => []
  | fuel + 1, n => if n < 10 then [n] else natDigitsAux fuel (n / 10) ++ [n % 10]

/-- Decimal digits of `n`, most significant first. -/
def natDigits (n : Nat) : List Nat :=
  natDigitsAux (n + 1) n

/-- Decimal rendering of a natural number: JS template interpolation of a
nonnegative integral number. -/
def natToStr (n : Nat) : String :=
  String.mk ((natDigits n).map digitChar)

/-- Decimal rendering of an integer: JS template interpolation of an
integral number, as used for `split.amount` in `serializeTransactionsToCSV`. -/
def intToStr (i : Int) : String :=
  if i < 0 then "-" ++ natToStr i.natAbs else natToStr i.natAbs

/-- Digit-fold used to read a decimal numeral back. -/
def digitsVal (l : List Char) : Nat :=
  l.foldl (fun acc c => acc * 10 + (c.toNat - 48)) 0

/-- JS `Number(s)` restricted to the canonical nonnegative numerals the
codec emits (on other inputs JS yields `NaN`, which no claim exercises). -/
def strToNat (s : String) : Nat :=
  digitsVal s.data

/-- JS `Number(s)` restricted to the canonical integral numerals the codec
emits. -/
def strToInt (s : String) : Int :=
  match s.data with
  | c :: rest => if c = '-' then -(Int.ofNat (digitsVal rest)) else Int.ofNat (digitsVal (c :: rest))
  | [] => 0

/-! ### Numeral round-trip lemmas -/

theorem natDigitsAux_fuel (fuel n : Nat) (h : n < fuel) :
    natDigitsAux fuel n = natDigitsAux (n + 1) n := by
  induction fuel using Nat.strong_induction_on generalizing n with
  | _ fuel ih =>
    match fuel, h with
    | fuel + 1, h =>
      simp only [natDigitsAux]
      by_cases h10 : n < 10
      · simp [h10]
      · have hd : n / 10 < n := Nat.div_lt_self (by omega) (by omega)
        simp only [if_neg h10]
        rw [ih fuel (by omega) (n / 10) (by omega),
            ih n (by omega) (n / 10) (by omega)]

theorem natDigits_eq (n : Nat) :
    natDigits n = if n < 10 then [n] else natDigits (n / 10) ++ [n % 10] := by
  by_cases h10 : n < 10
  · simp [natDigits, natDigitsAux, h10]
  · have hd : n / 10 < n := Nat.div_lt_self (by omega) (by omega)
    simp only [natDigits, natDigitsAux, h10, if_false]
    rw [natDigitsAux_fuel n (n / 10) hd]
    simp only [natDigitsAux]

theorem natDigits_lt_ten (n : Nat) : ∀ d ∈ natDigits n, d < 10 := by
  induction n using Nat.strong_induction_on with
  | _ n ih =>
    rw [natDigits_eq]
    by_cases h10 : n < 10
    · simp [h10]
    · have hd : n / 10 < n := Nat.div_lt_self (by omega) (by omega)
      simp only [if_neg h10, List.mem_append, List.mem_singleton]
      rintro d (hdm | rfl)
      · exact ih _ hd d hdm
      · omega

theorem natDigits_ne_nil (n : Nat) : natDigits n ≠ [] := by
  rw [natDigits_eq]
  by_cases h10 : n < 10 <;> simp [h10]

theorem digitChar_toNat (d : Nat) (h : d < 10) : (digitChar d).toNat = 48 + d := by
  interval_cases d <;> rfl

theorem foldl_digits_map (ds : List Nat) (hds : ∀ d ∈ ds, d < 10) (a : Nat) :
    (ds.map digitChar).foldl (fun acc c => acc * 10 + (c.toNat - 48)) a =
      ds.foldl (fun acc d => acc * 10 + d) a := by
  induction ds generalizing a with
  | nil => rfl
  | cons d ds ih =>
    have hd : d < 10 := hds d (by simp)
    simp only [List.map_cons, List.foldl_cons, digitChar_toNat d hd]
    rw [ih (fun x hx => hds x (by simp [hx]))]
    congr 1
    omega

theorem foldl_natDigits (n : Nat) (a : Nat) :
    (natDigits n).foldl (fun acc d => acc * 10 + d) a =
      a * 10 ^ (natDigits n).length + n := by
  induction n using Nat.strong_induction_on generalizing a with
  | _ n ih =>
    rw [natDigits_eq]
    by_cases h10 : n < 10
    · simp [h10, pow_succ]
    · have hd : n / 10 < n := Nat.div_lt_self (by omega) (by omega)
      simp only [if_neg h10, List.foldl_append, List.foldl_cons, List.foldl_nil,
        List.length_append, List.length_singleton]
      rw [ih (n / 10) hd a]
      have : a * 10 ^ ((natDigits (n / 10)).length + 1) =
          a * 10 ^ (natDigits (n / 10)).length * 10 := by ring
      rw [this]
      have := Nat.div_add_mod n 10
      omega

theorem strToNat_natToStr (n : Nat) : strToNat (natToStr n) = n := by
  show digitsVal ((natDigits n).map digitChar) = n
  unfold digitsVal
  rw [foldl_digits_map _ (natDigits_lt_ten n) 0, foldl_natDigits]
  simp

theorem natToStr_head_digit (n : Nat) :
    ∃ d l, d < 10 ∧ (natToStr n).data = digitChar d :: l ∧
      (∀ c ∈ l, ∃ e, e < 10 ∧ c = digitChar e) := by
  have hne := natDigits_ne_nil n
  have hlt := natDigits_lt_ten n
  match hd : natDigits n with
  | [] => exact absurd hd hne
  | d :: ds =>
    refine ⟨d, ds.map digitChar, hlt d (by rw [hd]; simp), ?_, ?_⟩
    · show ((natDigits n).map digitChar) = _
      rw [hd]; rfl
    · intro c hc
      rcases List.mem_map.1 hc with ⟨e, he, rfl⟩
      exact ⟨e, hlt e (by rw [hd]; simp [he]), rfl⟩

theorem digitChar_ne_minus (d : Nat) (h : d < 10) : digitChar d ≠ '-' := by
  interval_cases d <;> decide

theorem strToInt_intToStr (i : Int) : strToInt (intToStr i) = i := by
  by_cases hneg : i < 0
  · have : intToStr i = "-" ++ natToStr i.natAbs := by simp [intToStr, hneg]
    rw [this]
    have hval : digitsVal (natToStr i.natAbs).data = i.natAbs := strToNat_natToStr i.natAbs
    have hred : strToInt ⟨'-' :: (natToStr i.natAbs).data⟩ =
        -(Int.ofNat (digitsVal (natToStr i.natAbs).data)) := rfl
    rw [show ("-" ++ natToStr i.natAbs) = ⟨'-' :: (natToStr i.natAbs).data⟩ from rfl, hred, hval,
      Int.ofNat_eq_natCast]
    omega
  · have : intToStr i = natToStr i.natAbs := by simp [intToStr, hneg]
    rw [this]
    rcases natToStr_head_digit i.natAbs with ⟨d, l, hd, hdata, _⟩
    have hval : digitsVal (natToStr i.natAbs).data = i.natAbs := strToNat_natToStr i.natAbs
    rw [hdata] at hval
    have hne : digitChar d ≠ '-' := digitChar_ne_minus d hd
    simp only [strToInt, hdata, if_neg hne, hval, Int.ofNat_eq_natCast]
    omega

/-! ## Calendar arithmetic

`calculateNextDueDate` in the source builds a JS `Date` from the ISO string,
adds one period with `setDate` / `setMonth` / `setFullYear` (which roll
day-of-month overflow forward by the standard calendar rules) and prints it
back with `toISOString().split('T')[0]`.  We model this with explicit
year/month/day arithmetic in UTC. -/

/-- Gregorian leap-year test (what the JS `Date` calendar implements). -/
def isLeapYear (y : Nat) : Bool :=
  (y % 4 == 0 && y % 100 != 0) || y % 400 == 0

/-- Days in month `m` (1-12) of year `y` per the JS `Date` calendar. -/
def daysInMonth (y m : Nat) : Nat :=
  if m = 2 then (if isLeapYear y then 29 else 28)
  else if m = 4 ∨ m = 6 ∨ m = 9 ∨ m = 11 then 30
  else 31

theorem daysInMonth_pos (y m : Nat) : 0 < daysInMonth y m := by
  unfold daysInMonth
  repeat' split
  all_goals omega

/-- A calendar date, the observable state of the JS `Date` objects the
scheduler builds (they always sit at UTC midnight). -/
structure SimpleDate where
  year : Nat
  month : Nat
  day : Nat
  deriving DecidableEq, Repr

/-- Roll day-of-month overflow forward, as the JS `Date` setters do. The
fuel makes the recursion structural; `day + 1` is always sufficient since
each step removes at least 28 days. -/
def normalizeDayAux : Nat → Nat → Nat → Nat → SimpleDate
  | 0, y, m, day => ⟨y, m, day⟩
  | fuel + 1, y, m, day =>
    if daysInMonth y m < day then
      if 12 ≤ m then normalizeDayAux fuel (y + 1) 1 (day - daysInMonth y m)
      else normalizeDayAux fuel y (m + 1) (day - daysInMonth y m)
    else ⟨y, m, day⟩

/-- Normalize a date whose day may exceed the month length. -/
def normalizeDate (y m day : Nat) : SimpleDate :=
  normalizeDayAux (day + 1) y m day

/-- `addDays` from the source: `result.setDate(result.getDate() + days)`. -/
def addDaysD (d : SimpleDate) (days : Nat) : SimpleDate :=
  normalizeDate d.year d.month (d.day + days)

/-- `addMonths` from the source with `months = 1`:
`result.setMonth(result.getMonth() + 1)`. -/
def addMonthsD (d : SimpleDate) : SimpleDate :=
  if 12 ≤ d.month then normalizeDate (d.year + 1) 1 d.day
  else normalizeDate d.year (d.month + 1) d.day

/-- `addYears` from the source with `years = 1`:
`result.setFullYear(result.getFullYear() + 1)`. -/
def addYearsD (d : SimpleDate) : SimpleDate :=
  normalizeDate (d.year + 1) d.month d.day

/-- `new Date(currentDate)` on the zero-padded ISO `YYYY-MM-DD` strings the
scheduler stores (on other strings the TS code produces an invalid date and
`toISOString` throws; no claim exercises that, and we return a dummy). -/
def parseISODate (s : String) : SimpleDate :=
  match s.data.splitOn '-' with
  | [ys, ms, ds] => ⟨digitsVal ys, digitsVal ms, digitsVal ds⟩
  | _ => ⟨1970, 1, 1⟩

/-- Zero-pad to two digits, as `toISOString` prints months and days. -/
def pad2 (n : Nat) : String :=
  if n < 10 then "0" ++ natToStr n else natToStr n

/-- Zero-pad to four digits, as `toISOString` prints years in 0-9999. -/
def pad4 (n : Nat) : String :=
  if n < 10 then "000" ++ natToStr n
  else if n < 100 then "00" ++ natToStr n
  else if n < 1000 then "0" ++ natToStr n
  else natToStr n

/-- `toISOString().split('T')[0]` of a UTC-midnight date. -/
def formatISODate (d : SimpleDate) : String :=
  pad4 d.year ++ "-" ++ pad2 d.month ++ "-" ++ pad2 d.day

/-- `calculateNextDueDate` from `ledgerService.ts` lines 324-337. -/
def calculateNextDueDate (currentDate : String) (frequency : Frequency) : String :=
  let dateObj := parseISODate currentDate
  formatISODate (match frequency with
    | .daily => addDaysD dateObj 1
    | .weekly => addDaysD dateObj 7
    | .monthly => addMonthsD dateObj
    | .yearly => addYearsD dateObj)

/-! ## The recurrence engine

`processDueRecurringTransactions` (lines 339-375) reads three ambient
values inside its body: `today` from `new Date()`, `now` from `Date.now()`
and fresh ids from `Math.random()` via `generateId`.  The embedding passes
them as explicit parameters `today`, `now` and `idGen`; `idGen k` is the id
produced by the `k`-th `generateId()` call of the run. -/

/-- The per-rule update applied by `processDueRecurringTransactions`: due
active rules get `lastRun := nextDueDate` and the due date advanced one
period; all other rules are returned unchanged. -/
def ruleStep (today : String) (item : RecurringTransaction) : RecurringTransaction :=
  if item.active && strLe item.nextDueDate today then
    { item with
      lastRun := some item.nextDueDate
      nextDueDate := calculateNextDueDate item.nextDueDate item.frequency }
  else item

/-- The rule-list traversal of `processDueRecurringTransactions`; `k`
counts the `generateId()` calls made so far. -/
def processDueRecurringAux (today : String) (now : Nat) (idGen : Nat → String) :
    Nat → List RecurringTransaction → List Transaction × List RecurringTransaction
  | _, [] => ([], [])
  | k, item :: rest =>
    if item.active && strLe item.nextDueDate today then
      let newTx : Transaction :=
        { id := idGen k
          date := item.nextDueDate
          payee := some item.payee
          description := some (item.description ++ " (Recurring)")
          splits := item.splits
          createdAt := now }
      let r := processDueRecurringAux today now idGen (k + 1) rest
      (newTx :: r.1, ruleStep today item :: r.2)
    else
      let r := processDueRecurringAux today now idGen k rest
      (r.1, item :: r.2)

/-- `processDueRecurringTransactions` from `ledgerService.ts` lines
339-375, with the ambient reads (`new Date()`, `Date.now()`,
`Math.random()`) made explicit parameters.  As in the source, the
`currentTransactions` argument is accepted but never read. -/
def processDueRecurringTransactions (today : String) (now : Nat) (idGen : Nat → String)
    (recurringList : List RecurringTransaction)
    (currentTransactions : List Transaction) :
    List Transaction × List RecurringTransaction :=
  processDueRecurringAux today now idGen 0 recurringList

/-! ### Engine lemmas -/

theorem processDueRecurringAux_rules (today : String) (now : Nat) (idGen : Nat → String)
    (k : Nat) (l : List RecurringTransaction) :
    (processDueRecurringAux today now idGen k l).2 = l.map (ruleStep today) := by
  induction l generalizing k with
  | nil => rfl
  | cons item rest ih =>
    by_cases hdue : (item.active && strLe item.nextDueDate today) = true
    · simp only [processDueRecurringAux, List.map_cons, hdue]
      simp [ih]
    · rw [Bool.not_eq_true] at hdue
      simp only [processDueRecurringAux, List.map_cons, hdue]
      simp [ih, ruleStep, hdue]

theorem processDueRecurringAux_append (today : String) (now : Nat) (idGen : Nat → String)
    (k : Nat) (l1 l2 : List RecurringTransaction) :
    processDueRecurringAux today now idGen k (l1 ++ l2) =
      ((processDueRecurringAux today now idGen k l1).1 ++
        (processDueRecurringAux today now idGen
          (k + (processDueRecurringAux today now idGen k l1).1.length) l2).1,
       (processDueRecurringAux today now idGen k l1).2 ++
        (processDueRecurringAux today now idGen
          (k + (processDueRecurringAux today now idGen k l1).1.length) l2).2) := by
  induction l1 generalizing k with
  | nil => simp [processDueRecurringAux]
  | cons item rest ih =>
    by_cases hdue : (item.active && strLe item.nextDueDate today) = true
    · simp only [List.cons_append, processDueRecurringAux, List.append_eq, hdue, if_true,
        ih (k + 1), List.length_cons]
      rw [show k + 1 + (processDueRecurringAux today now idGen (k + 1) rest).1.length =
          k + ((processDueRecurringAux today now idGen (k + 1) rest).1.length + 1) from by omega]
    · rw [Bool.not_eq_true] at hdue
      simp only [List.cons_append, processDueRecurringAux, List.append_eq, hdue, ih k]
      simp

theorem processDueRecurringAux_no_emission (today : String) (now : Nat) (idGen : Nat → String)
    (k : Nat) (l : List RecurringTransaction)
    (h : ∀ item ∈ l, ¬(item.active = true ∧ strLe item.nextDueDate today = true)) :
    (processDueRecurringAux today now idGen k l).1 = [] := by
  induction l generalizing k with
  | nil => rfl
  | cons item rest ih =>
    have hitem := h item (by simp)
    have hdue : (item.active && strLe item.nextDueDate today) = false := by
      rw [← Bool.not_eq_true, Bool.and_eq_true]
      tauto
    simp only [processDueRecurringAux, hdue]
    simpa using ih k (fun x hx => h x (by simp [hx]))

theorem processDueRecurringAux_emission_count (today : String) (now now2 : Nat)
    (idGen idGen2 : Nat → String) (k k2 : Nat) (l : List RecurringTransaction) :
    (processDueRecurringAux today now idGen k l).1.length =
      (processDueRecurringAux today now2 idGen2 k2 l).1.length := by
  induction l generalizing k k2 with
  | nil => rfl
  | cons item rest ih =>
    by_cases hdue : (item.active && strLe item.nextDueDate today) = true
    · simp only [processDueRecurringAux, hdue, if_true, List.length_cons, ih (k + 1) (k2 + 1)]
    · rw [Bool.not_eq_true] at hdue
      simp only [processDueRecurringAux, hdue]
      simpa using ih k k2

/-- A per-rule frame fact: `ruleStep` changes at most `lastRun` and
`nextDueDate`. -/
theorem ruleStep_frame (today : String) (item : RecurringTransaction) :
    (ruleStep today item).id = item.id ∧
    (ruleStep today item).frequency = item.frequency ∧
    (ruleStep today item).payee = item.payee ∧
    (ruleStep today item).description = item.description ∧
    (ruleStep today item).splits = item.splits ∧
    (ruleStep today item).active = item.active := by
  unfold ruleStep
  split <;> simp

/-- A concrete daily rule, two periods overdue relative to `2024-01-03`. -/
def overdueDailyRule : RecurringTransaction :=
  { id := "r1"
    frequency := .daily
    nextDueDate := "2024-01-01"
    payee := "Gym"
    description := "Membership"
    splits := [⟨"acc_checking", -30⟩, ⟨"acc_activity", 30⟩]
    lastRun := none
    active := true }

/-- The same rule, deactivated. -/
def inactiveOverdueRule : RecurringTransaction :=
  { overdueDailyRule with id := "r2", active := false }

/-- C10: `processDueRecurringTransactions` returns `updatedRecurring` with
exactly the length and order of the input rule list (it never creates or
deletes rules), and every output rule keeps the input rule's `id`,
`frequency`, `payee`, `description`, `splits` and `active` flag — only
`lastRun` and `nextDueDate` may differ. -/
theorem C10_updatedRecurring_frame (today : String) (now : Nat) (idGen : Nat → String)
    (rules : List RecurringTransaction) (ts : List Transaction) :
    (processDueRecurringTransactions today now idGen rules ts).2.length = rules.length ∧
    List.Forall₂ (fun item out =>
      out.id = item.id ∧ out.frequency = item.frequency ∧ out.payee = item.payee ∧
      out.description = item.description ∧ out.splits = item.splits ∧
      out.active = item.active)
      rules (processDueRecurringTransactions today now idGen rules ts).2 := by
  have h : (processDueRecurringTransactions today now idGen rules ts).2 =
      rules.map (ruleStep today) := processDueRecurringAux_rules today now idGen 0 rules
  rw [h]
  refine ⟨by simp, ?_⟩
  clear h
  induction rules with
  | nil => exact List.Forall₂.nil
  | cons item rest ih => exact List.Forall₂.cons (ruleStep_frame today item) ih

/-- C6: a rule with `active = false` is skipped by the engine: it causes no
emission (the emitted list is the same as if the rule were absent) and is
returned with every field, `nextDueDate` and `lastRun` included, unchanged
— even when its `nextDueDate` is in the past. -/
theorem C6_inactive_rule_untouched (today : String) (now : Nat) (idGen : Nat → String)
    (ts : List Transaction) (pre post : List RecurringTransaction)
    (r : RecurringTransaction) (hr : r.active = false) :
    (processDueRecurringTransactions today now idGen (pre ++ r :: post) ts).1 =
      (processDueRecurringTransactions today now idGen (pre ++ post) ts).1 ∧
    (processDueRecurringTransactions today now idGen (pre ++ r :: post) ts).2 =
      pre.map (ruleStep today) ++ r :: post.map (ruleStep today) := by
  have hcond : (r.active && strLe r.nextDueDate today) = false := by simp [hr]
  constructor
  · show (processDueRecurringAux today now idGen 0 (pre ++ r :: post)).1 =
      (processDueRecurringAux today now idGen 0 (pre ++ post)).1
    rw [processDueRecurringAux_append, processDueRecurringAux_append]
    simp [processDueRecurringAux, hcond]
  · show (processDueRecurringAux today now idGen 0 (pre ++ r :: post)).2 = _
    rw [processDueRecurringAux_rules]
    simp [ruleStep, hcond]

/-- C6 witness: concrete run of `C6_inactive_rule_untouched` on a
deactivated overdue rule. -/
theorem C6_witness :
    (processDueRecurringTransactions "2024-01-03" 7 natToStr
        ([] ++ inactiveOverdueRule :: []) []).1 =
      (processDueRecurringTransactions "2024-01-03" 7 natToStr ([] ++ []) []).1 ∧
    (processDueRecurringTransactions "2024-01-03" 7 natToStr
        ([] ++ inactiveOverdueRule :: []) []).2 =
      [].map (ruleStep "2024-01-03") ++
        inactiveOverdueRule :: ([] : List RecurringTransaction).map (ruleStep "2024-01-03") :=
  C6_inactive_rule_untouched "2024-01-03" 7 natToStr [] [] [] inactiveOverdueRule rfl

/-- C5: an active rule whose `nextDueDate` is at or before `today` yields
exactly one emitted transaction in a single invocation — id drawn fresh
from the id source, `date` equal to the old `nextDueDate` (not `today`),
description suffixed with the recurrence marker, splits copied verbatim,
`createdAt = now` — and the rule comes back with `lastRun` set to the old
due date and `nextDueDate` advanced exactly one period, no matter how many
periods have elapsed. -/
theorem C5_due_rule_emits_once (today : String) (now : Nat) (idGen : Nat → String)
    (ts : List Transaction) (pre post : List RecurringTransaction)
    (r : RecurringTransaction) (hactive : r.active = true)
    (hdue : strLe r.nextDueDate today = true) :
    (processDueRecurringTransactions today now idGen (pre ++ r :: post) ts).1 =
      (processDueRecurringAux today now idGen 0 pre).1 ++
        ({ id := idGen (processDueRecurringAux today now idGen 0 pre).1.length
           date := r.nextDueDate
           payee := some r.payee
           description := some (r.description ++ " (Recurring)")
           splits := r.splits
           createdAt := now } : Transaction) ::
        (processDueRecurringAux today now idGen
          ((processDueRecurringAux today now idGen 0 pre).1.length + 1) post).1 ∧
    (processDueRecurringTransactions today now idGen (pre ++ r :: post) ts).2 =
      pre.map (ruleStep today) ++
        { r with
          lastRun := some r.nextDueDate
          nextDueDate := calculateNextDueDate r.nextDueDate r.frequency } ::
        post.map (ruleStep today) := by
  have hcond : (r.active && strLe r.nextDueDate today) = true := by simp [hactive, hdue]
  constructor
  · show (processDueRecurringAux today now idGen 0 (pre ++ r :: post)).1 = _
    rw [processDueRecurringAux_append]
    simp only [processDueRecurringAux, hcond, if_true]
    simp [Nat.add_comm]
  · show (processDueRecurringAux today now idGen 0 (pre ++ r :: post)).2 = _
    rw [processDueRecurringAux_rules]
    simp [ruleStep, hcond]

/-- C5 witness: concrete run of `C5_due_rule_emits_once` on a daily rule
two periods overdue; the single emitted transaction is dated on the old
due date and the due date advances one day only. -/
theorem C5_witness :
    (processDueRecurringTransactions "2024-01-03" 99 natToStr
        ([] ++ overdueDailyRule :: []) []).1 =
      (processDueRecurringAux "2024-01-03" 99 natToStr 0 []).1 ++
        ({ id := natToStr (processDueRecurringAux "2024-01-03" 99 natToStr 0 []).1.length
           date := overdueDailyRule.nextDueDate
           payee := some overdueDailyRule.payee
           description := some (overdueDailyRule.description ++ " (Recurring)")
           splits := overdueDailyRule.splits
           createdAt := 99 } : Transaction) ::
        (processDueRecurringAux "2024-01-03" 99 natToStr
          ((processDueRecurringAux "2024-01-03" 99 natToStr 0 []).1.length + 1) []).1 ∧
    (processDueRecurringTransactions "2024-01-03" 99 natToStr
        ([] ++ overdueDailyRule :: []) []).2 =
      [].map (ruleStep "2024-01-03") ++
        { overdueDailyRule with
          lastRun := some overdueDailyRule.nextDueDate
          nextDueDate :=
            calculateNextDueDate overdueDailyRule.nextDueDate overdueDailyRule.frequency } ::
        ([] : List RecurringTransaction).map (ruleStep "2024-01-03") :=
  C5_due_rule_emits_once "2024-01-03" 99 natToStr [] [] [] overdueDailyRule rfl rfl

/-- C3 counterexample: the engine is not a function of its explicit TS
inputs alone.  With the rule list and transaction list held fixed, running
at ambient clock date `2024-01-03` and at `2023-12-31` (both modelled as
the value read by the internal `new Date()` call) produces different
outputs, so the current date is an implicit-clock input, not an explicit
parameter as the claim asserts. -/
theorem C3_counterexample :
    processDueRecurringTransactions "2024-01-03" 0 natToStr [overdueDailyRule] [] ≠
      processDueRecurringTransactions "2023-12-31" 0 natToStr [overdueDailyRule] [] := by
  decide

/-- C3 amended: `processDueRecurringTransactions` is deterministic only
once the ambient values it reads internally (`new Date()` date, `Date.now()`
timestamp, `Math.random()` id stream) are fixed alongside the explicit
arguments.  Given those: the whole output is independent of the
`currentTransactions` argument (the source never reads it), the updated
rule list depends only on the rule list and the ambient date, and the
number of emitted transactions likewise. -/
theorem C3_amended_determinism (today : String) (now now2 : Nat)
    (idGen idGen2 : Nat → String) (rules : List RecurringTransaction)
    (ts ts2 : List Transaction) :
    processDueRecurringTransactions today now idGen rules ts =
      processDueRecurringTransactions today now idGen rules ts2 ∧
    (processDueRecurringTransactions today now idGen rules ts).2 =
      (processDueRecurringTransactions today now2 idGen2 rules ts2).2 ∧
    (processDueRecurringTransactions today now idGen rules ts).1.length =
      (processDueRecurringTransactions today now2 idGen2 rules ts2).1.length := by
  refine ⟨rfl, ?_, ?_⟩
  · rw [show (processDueRecurringTransactions today now idGen rules ts).2 =
        rules.map (ruleStep today) from processDueRecurringAux_rules today now idGen 0 rules,
      show (processDueRecurringTransactions today now2 idGen2 rules ts2).2 =
        rules.map (ruleStep today) from processDueRecurringAux_rules today now2 idGen2 0 rules]
  · exact processDueRecurringAux_emission_count today now now2 idGen idGen2 0 0 rules

/-- C2 counterexample: with `today = 2024-01-03` and a daily rule due
`2024-01-01`, the first invocation advances the due date only one period
(to `2024-01-02`, still in the past), so the second invocation with the
same `today` on the merged-back rules emits again — the claim's
"zero new transactions regardless of how far in the past" is false. -/
theorem C2_counterexample :
    (processDueRecurringTransactions "2024-01-03" 1 natToStr
        (processDueRecurringTransactions "2024-01-03" 0 natToStr
          [overdueDailyRule] []).2 []).1 ≠ [] ∧
    (processDueRecurringTransactions "2024-01-03" 1 natToStr
        (processDueRecurringTransactions "2024-01-03" 0 natToStr
          [overdueDailyRule] []).2 []).1.length = 1 := by
  constructor <;> decide

/-- C2 amended: the second invocation with the same `today` emits zero new
transactions provided every rule that fires on the first invocation was at
most one period overdue, i.e. its advanced due date lies strictly after
`today`.  (Rules further overdue fire again, by the single-catch-up
policy.) -/
theorem C2_amended_idempotent (today : String) (now now2 : Nat)
    (idGen idGen2 : Nat → String) (rules : List RecurringTransaction)
    (ts ts2 : List Transaction)
    (h : ∀ r ∈ rules, r.active = true → strLe r.nextDueDate today = true →
      strLe (calculateNextDueDate r.nextDueDate r.frequency) today = false) :
    (processDueRecurringTransactions today now2 idGen2
      (processDueRecurringTransactions today now idGen rules ts).2 ts2).1 = [] := by
  rw [show (processDueRecurringTransactions today now idGen rules ts).2 =
      rules.map (ruleStep today) from processDueRecurringAux_rules today now idGen 0 rules]
  apply processDueRecurringAux_no_emission
  intro item hitem
  rcases List.mem_map.1 hitem with ⟨r, hr, rfl⟩
  rintro ⟨hactive, hdue⟩
  by_cases hfire : (r.active && strLe r.nextDueDate today) = true
  · have hfire2 := hfire
    rw [Bool.and_eq_true] at hfire2
    have hstep : ruleStep today r =
        { r with
          lastRun := some r.nextDueDate
          nextDueDate := calculateNextDueDate r.nextDueDate r.frequency } := by
      simp [ruleStep, hfire]
    rw [hstep] at hdue
    have := h r hr hfire2.1 hfire2.2
    simp only at hdue
    rw [hdue] at this
    cases this
  · have hstep : ruleStep today r = r := by
      rw [Bool.not_eq_true] at hfire
      simp [ruleStep, hfire]
    rw [hstep] at hactive hdue
    exact hfire (by simp [hactive, hdue])

/-- C2 witness: a rule due exactly on `today` satisfies the proviso of
`C2_amended_idempotent`, and the second invocation emits nothing. -/
theorem C2_witness :
    (processDueRecurringTransactions "2024-01-03" 1 natToStr
      (processDueRecurringTransactions "2024-01-03" 0 natToStr
        [{ overdueDailyRule with nextDueDate := "2024-01-03" }] []).2 []).1 = [] :=
  C2_amended_idempotent "2024-01-03" 0 1 natToStr natToStr
    [{ overdueDailyRule with nextDueDate := "2024-01-03" }] [] []
    (by intro r hr hact hdue; fin_cases hr; decide)

/-! ## Balance aggregation

`calculateAccountBalance` (lines 107-117), `calculateTreeBalance`
(lines 120-130) and `getFlattenedBalances` (lines 132-140).  The TS
subtree recursion is unbounded (it diverges on cyclic `parentId` data), so
the embedding takes fuel; the theorems supply a rank certificate for the
parent relation, under which any fuel above every rank gives the value of
the source recursion. -/

/-- `calculateAccountBalance` from `ledgerService.ts` lines 107-117. -/
def calculateAccountBalance (accountId : String) (transactions : List Transaction) : Int :=
  transactions.foldl (fun balance tx =>
    tx.splits.foldl (fun b split =>
      if split.accountId = accountId then b + split.amount else b) balance) 0

/-- `calculateTreeBalance` from `ledgerService.ts` lines 120-130, with
fuel bounding the recursion depth (the fuel-0 leaf value is the own
balance; every theorem keeps the fuel strictly above the subtree height so
that case is never the one observed). -/
def calculateTreeBalance : Nat → Account → List Account → List Transaction → Int
  | 0, acc, _, transactions => calculateAccountBalance acc.id transactions
  | fuel + 1, acc, allAccounts, transactions =>
    (allAccounts.filter (fun a => a.parentId = some acc.id)).foldl
      (fun total child => total + calculateTreeBalance fuel child allAccounts transactions)
      (calculateAccountBalance acc.id transactions)

/-- `getFlattenedBalances` from `ledgerService.ts` lines 132-140. -/
def getFlattenedBalances (fuel : Nat) (accounts : List Account)
    (transactions : List Transaction) : List FlattenedAccountBalance :=
  accounts.map (fun acc =>
    { id := acc.id
      name := acc.name
      type := acc.type
      balance := calculateTreeBalance fuel acc accounts transactions
      budget := acc.budget.getD 0 })

theorem foldl_add_map {α : Type} (l : List α) (f : α → Int) (b : Int) :
    l.foldl (fun t c => t + f c) b = b + (l.map f).sum := by
  induction l generalizing b with
  | nil => simp
  | cons x xs ih => simp [ih, add_assoc]

theorem calculateTreeBalance_stable (accounts : List Account) (txs : List Transaction)
    (rank : String → Nat)
    (hcert : ∀ c ∈ accounts, ∀ pid, c.parentId = some pid → rank c.id < rank pid) :
    ∀ fuel1 fuel2 acc, rank acc.id < fuel1 → rank acc.id < fuel2 →
      calculateTreeBalance fuel1 acc accounts txs =
        calculateTreeBalance fuel2 acc accounts txs := by
  intro fuel1
  induction fuel1 using Nat.strong_induction_on with
  | _ fuel1 ih =>
    intro fuel2 acc h1 h2
    match fuel1, h1 with
    | f1 + 1, h1 =>
      match fuel2, h2 with
      | f2 + 1, h2 =>
        simp only [calculateTreeBalance]
        rw [foldl_add_map, foldl_add_map]
        congr 1
        congr 1
        apply List.map_congr_left
        intro c hc
        rcases List.mem_filter.1 hc with ⟨hmem, hpar⟩
        have hpar2 : c.parentId = some acc.id := by simpa using hpar
        have hrank : rank c.id < rank acc.id := hcert c hmem acc.id hpar2
        exact ih f1 (by omega) f2 c (by omega) (by omega)

/-- `Forall₂` between a list and its image under a map. -/
theorem forall2_map_right {α β : Type} (l : List α) (f : α → β) (r : α → β → Prop)
    (h : ∀ a ∈ l, r a (f a)) : List.Forall₂ r l (l.map f) := by
  induction l with
  | nil => exact List.Forall₂.nil
  | cons x xs ih =>
    exact List.Forall₂.cons (h x (by simp)) (ih (fun a ha => h a (by simp [ha])))

/-- C4: with acyclic parent data (a rank certificate, which is what makes
the TS recursion terminate) and enough fuel, `getFlattenedBalances` yields
one entry per account, in order, whose balance is the own
`calculateAccountBalance` plus the sum of the flattened (subtree) balances
of the direct children; for a leaf (no account has it as parent) the
balance is exactly `calculateAccountBalance`. -/
theorem C4_flattened_balances (accounts : List Account) (txs : List Transaction)
    (rank : String → Nat) (fuel : Nat)
    (hcert : ∀ c ∈ accounts, ∀ pid, c.parentId = some pid → rank c.id < rank pid)
    (hfuel : ∀ a ∈ accounts, rank a.id < fuel) :
    List.Forall₂ (fun acc entry =>
      entry.id = acc.id ∧
      entry.balance = calculateAccountBalance acc.id txs +
        ((accounts.filter (fun a => a.parentId = some acc.id)).map
          (fun child => calculateTreeBalance fuel child accounts txs)).sum ∧
      (accounts.filter (fun a => a.parentId = some acc.id) = [] →
        entry.balance = calculateAccountBalance acc.id txs))
      accounts (getFlattenedBalances fuel accounts txs) := by
  apply forall2_map_right
  intro acc hacc
  have hflt : rank acc.id < fuel := hfuel acc hacc
  obtain ⟨f, rfl⟩ : ∃ f, fuel = f + 1 := ⟨fuel - 1, by omega⟩
  have hbal : calculateTreeBalance (f + 1) acc accounts txs =
      calculateAccountBalance acc.id txs +
        ((accounts.filter (fun a => a.parentId = some acc.id)).map
          (fun child => calculateTreeBalance (f + 1) child accounts txs)).sum := by
    have hunfold : calculateTreeBalance (f + 1) acc accounts txs =
        (accounts.filter (fun a => a.parentId = some acc.id)).foldl
          (fun total child => total + calculateTreeBalance f child accounts txs)
          (calculateAccountBalance acc.id txs) := rfl
    rw [hunfold, foldl_add_map]
    congr 1
    congr 1
    apply List.map_congr_left
    intro c hc
    rcases List.mem_filter.1 hc with ⟨hmem, hpar⟩
    have hpar2 : c.parentId = some acc.id := by simpa using hpar
    have hrank : rank c.id < rank acc.id := hcert c hmem acc.id hpar2
    exact calculateTreeBalance_stable accounts txs rank hcert f (f + 1) c
      (by omega) (by omega)
  refine ⟨rfl, hbal, ?_⟩
  intro hleaf
  simpa [hleaf] using hbal

/-- Concrete two-account hierarchy from the spec's test scenario:
`A(parent=null)`, `B(parent=A)`. -/
def sampleAccounts : List Account :=
  [{ id := "A", parentId := none, name := "Assets", type := .asset, budget := none },
   { id := "B", parentId := some "A", name := "Bank", type := .asset, budget := none }]

/-- A rank certificate for `sampleAccounts`. -/
def sampleRank : String → Nat := fun id => if id = "B" then 0 else 1

/-- C4 witness: `C4_flattened_balances` applied to the concrete scenario
with one transaction of a single 100 split on the child account. -/
theorem C4_witness :
    List.Forall₂ (fun acc entry =>
      entry.id = acc.id ∧
      entry.balance = calculateAccountBalance acc.id
          [{ id := "t1", date := "2024-01-02", payee := none, description := none,
             splits := [⟨"B", 100⟩], createdAt := 5 }] +
        ((sampleAccounts.filter (fun a => a.parentId = some acc.id)).map
          (fun child => calculateTreeBalance 2 child sampleAccounts
            [{ id := "t1", date := "2024-01-02", payee := none, description := none,
               splits := [⟨"B", 100⟩], createdAt := 5 }])).sum ∧
      (sampleAccounts.filter (fun a => a.parentId = some acc.id) = [] →
        entry.balance = calculateAccountBalance acc.id
          [{ id := "t1", date := "2024-01-02", payee := none, description := none,
             splits := [⟨"B", 100⟩], createdAt := 5 }]))
      sampleAccounts (getFlattenedBalances 2 sampleAccounts
        [{ id := "t1", date := "2024-01-02", payee := none, description := none,
           splits := [⟨"B", 100⟩], createdAt := 5 }]) :=
  C4_flattened_balances sampleAccounts
    [{ id := "t1", date := "2024-01-02", payee := none, description := none,
       splits := [⟨"B", 100⟩], createdAt := 5 }]
    sampleRank 2
    (by
      intro c hc pid hp
      fin_cases hc
      · simp at hp
      · have : pid = "A" := by simpa [sampleAccounts] using hp.symm
        subst this
        decide)
    (by intro a ha; fin_cases ha <;> decide)

/-! ## Descendant queries

`getDescendantAccountIds` (lines 92-104) is a stack-driven worklist with
no visited-set; it terminates exactly when the parent relation is acyclic.
The embedding takes fuel (one unit per loop iteration, `none` modelling an
exhausted budget, i.e. nontermination of the source loop); the JS `Set`
accumulator is a duplicate-free insertion-ordered list. -/

/-- The `while (stack.length > 0)` loop of `getDescendantAccountIds`.  The
JS stack pops from the back and pushes children in order, which is the
same as popping the head here after pushing the reversed child list. -/
def getDescendantAccountIdsAux (allAccounts : List Account) :
    Nat → List String → List String → Option (List String)
  | 0, stack, result =>
    match stack with
    | [] => some result
    | _ :: _ => none
  | fuel + 1, stack, result =>
    match stack with
    | [] => some result
    | currentId :: rest =>
      let result2 := if currentId ∈ result then result else result ++ [currentId]
      let children := allAccounts.filter (fun a => a.parentId = some currentId)
      getDescendantAccountIdsAux allAccounts fuel
        ((children.map (fun a => a.id)).reverse ++ rest) result2

/-- `getDescendantAccountIds` from `ledgerService.ts` lines 92-104, with
fuel for the unbounded worklist loop. -/
def getDescendantAccountIds (rootId : String) (allAccounts : List Account) (fuel : Nat) :
    Option (List String) :=
  getDescendantAccountIdsAux allAccounts fuel [rootId] []

/-- Termination measure of the worklist: stack entries weighted
exponentially by rank. -/
def stackMeasure (rank : String → Nat) (base : Nat) (stack : List String) : Nat :=
  (stack.map (fun id => base ^ rank id)).sum

theorem sum_map_le_length_mul {α : Type} (l : List α) (f : α → Nat) (b : Nat)
    (h : ∀ x ∈ l, f x ≤ b) : (l.map f).sum ≤ l.length * b := by
  induction l with
  | nil => simp
  | cons x xs ih =>
    simp only [List.map_cons, List.sum_cons, List.length_cons]
    have h1 : f x ≤ b := h x (by simp)
    have h2 : (xs.map f).sum ≤ xs.length * b := ih (fun y hy => h y (by simp [hy]))
    calc f x + (xs.map f).sum ≤ b + xs.length * b := by omega
      _ = (xs.length + 1) * b := by ring

theorem getDescendantAccountIdsAux_terminates (allAccounts : List Account)
    (rank : String → Nat)
    (hcert : ∀ c ∈ allAccounts, ∀ pid, c.parentId = some pid → rank c.id < rank pid) :
    ∀ fuel stack result,
      stackMeasure rank (allAccounts.length + 1) stack ≤ fuel →
      ∃ r, getDescendantAccountIdsAux allAccounts fuel stack result = some r := by
  intro fuel
  induction fuel with
  | zero =>
    intro stack result h
    match stack with
    | [] => exact ⟨result, rfl⟩
    | id :: rest =>
      exfalso
      have hone : 1 ≤ (allAccounts.length + 1) ^ rank id :=
        Nat.one_le_pow _ _ (by omega)
      have : 1 ≤ stackMeasure rank (allAccounts.length + 1) (id :: rest) := by
        simp only [stackMeasure, List.map_cons, List.sum_cons]
        omega
      omega
  | succ f ih =>
    intro stack result h
    match stack with
    | [] => exact ⟨result, rfl⟩
    | id :: rest =>
      simp only [getDescendantAccountIdsAux]
      apply ih
      set base := allAccounts.length + 1 with hbase
      set children := allAccounts.filter (fun a => a.parentId = some id) with hchildren
      have hchildrank : ∀ c ∈ children, rank c.id < rank id := by
        intro c hc
        rcases List.mem_filter.1 hc with ⟨hmem, hpar⟩
        exact hcert c hmem id (by simpa using hpar)
      have hmeasure : stackMeasure rank base ((children.map (fun a => a.id)).reverse ++ rest) +
          1 ≤ stackMeasure rank base (id :: rest) := by
        simp only [stackMeasure, List.map_append, List.sum_append, List.map_reverse,
          List.sum_reverse, List.map_cons, List.sum_cons]
        have hsplit : ((children.map (fun a => a.id)).map (fun i => base ^ rank i)).sum + 1 ≤
            base ^ rank id := by
          match hrk : rank id with
          | 0 =>
            have hnil : children = [] := by
              rw [hchildren, List.filter_eq_nil_iff]
              intro a ha hpar
              have := hcert a ha id (by simpa using hpar)
              omega
            rw [hnil]
            simp
          | rk + 1 =>
            have hboundc : ∀ i ∈ children.map (fun a => a.id), base ^ rank i ≤ base ^ rk := by
              intro i hi
              rcases List.mem_map.1 hi with ⟨c, hc, rfl⟩
              have := hchildrank c hc
              exact Nat.pow_le_pow_right (by omega) (by omega)
            have hlen : (children.map (fun a => a.id)).length ≤ allAccounts.length := by
              rw [hchildren]
              simpa using List.length_filter_le _ _
            have hsum := sum_map_le_length_mul (children.map (fun a => a.id))
              (fun i => base ^ rank i) (base ^ rk) hboundc
            have hple : (children.map (fun a => a.id)).length * base ^ rk ≤
                (base - 1) * base ^ rk := by
              apply Nat.mul_le_mul_right
              omega
            have hone : 1 ≤ base ^ rk := Nat.one_le_pow _ _ (by omega)
            have hexp : base * base ^ rk = (base - 1) * base ^ rk + base ^ rk := by
              have hb : base = base - 1 + 1 := by omega
              calc base * base ^ rk = (base - 1 + 1) * base ^ rk := by rw [← hb]
                _ = (base - 1) * base ^ rk + base ^ rk := by ring
            have hpow : base ^ (rk + 1) = base * base ^ rk := by ring
            rw [hpow, hexp]
            omega
        omega
      omega

theorem getDescendantAccountIdsAux_mem (allAccounts : List Account) :
    ∀ fuel stack result r,
      getDescendantAccountIdsAux allAccounts fuel stack result = some r →
      (∀ x ∈ result, x ∈ r) ∧ (∀ x ∈ stack, x ∈ r) := by
  intro fuel
  induction fuel with
  | zero =>
    intro stack result r h
    match stack, h with
    | [], h =>
      cases h
      exact ⟨fun x hx => hx, fun x hx => by cases hx⟩
  | succ f ih =>
    intro stack result r h
    match stack, h with
    | [], h =>
      cases h
      exact ⟨fun x hx => hx, fun x hx => by cases hx⟩
    | id :: rest, h =>
      simp only [getDescendantAccountIdsAux] at h
      rcases ih _ _ _ h with ⟨hres, hstk⟩
      have hid : id ∈ r := by
        apply hres
        by_cases hmem : id ∈ result <;> simp [hmem]
      refine ⟨?_, ?_⟩
      · intro x hx
        apply hres
        by_cases hmem : id ∈ result <;> simp [hmem, hx]
      · intro x hx
        rcases List.mem_cons.1 hx with rfl | hx
        · exact hid
        · exact hstk x (by simp [hx])

theorem getDescendantAccountIdsAux_closed (allAccounts : List Account) :
    ∀ fuel stack result r,
      getDescendantAccountIdsAux allAccounts fuel stack result = some r →
      (∀ i ∈ result, ∀ c ∈ allAccounts, c.parentId = some i →
        (c.id ∈ result ∨ c.id ∈ stack)) →
      ∀ i ∈ r, ∀ c ∈ allAccounts, c.parentId = some i → c.id ∈ r := by
  intro fuel
  induction fuel with
  | zero =>
    intro stack result r h hinv
    match stack, h with
    | [], h =>
      cases h
      intro i hi c hc hpar
      rcases hinv i hi c hc hpar with hin | hin
      · exact hin
      · cases hin
  | succ f ih =>
    intro stack result r h hinv
    match stack, h with
    | [], h =>
      cases h
      intro i hi c hc hpar
      rcases hinv i hi c hc hpar with hin | hin
      · exact hin
      · cases hin
    | id :: rest, h =>
      simp only [getDescendantAccountIdsAux] at h
      apply ih _ _ _ h
      intro i hi c hc hpar
      by_cases hmem : id ∈ result
      · rw [if_pos hmem] at h hi ⊢
        rcases hinv i hi c hc hpar with hin | hin
        · left
          exact hin
        · rcases List.mem_cons.1 hin with heq | hin
          · left
            rw [heq]
            exact hmem
          · right
            simp [hin]
      · rw [if_neg hmem] at h hi ⊢
        rcases List.mem_append.1 hi with hi2 | hi2
        · rcases hinv i hi2 c hc hpar with hin | hin
          · left
            simp [hin]
          · rcases List.mem_cons.1 hin with heq | hin
            · left
              rw [heq]
              simp
            · right
              simp [hin]
        · have : i = id := by simpa using hi2
          subst this
          right
          rw [List.mem_append]
          left
          rw [List.mem_reverse]
          apply List.mem_map.2
          exact ⟨c, List.mem_filter.2 ⟨hc, by simp [hpar]⟩, rfl⟩

theorem getDescendantAccountIdsAux_minimal (allAccounts : List Account) (S : List String)
    (hS : ∀ i ∈ S, ∀ c ∈ allAccounts, c.parentId = some i → c.id ∈ S) :
    ∀ fuel stack result r,
      getDescendantAccountIdsAux allAccounts fuel stack result = some r →
      (∀ x ∈ stack, x ∈ S) → (∀ x ∈ result, x ∈ S) →
      ∀ x ∈ r, x ∈ S := by
  intro fuel
  induction fuel with
  | zero =>
    intro stack result r h hstk hres
    match stack, h with
    | [], h =>
      cases h
      exact hres
  | succ f ih =>
    intro stack result r h hstk hres
    match stack, h with
    | [], h =>
      cases h
      exact hres
    | id :: rest, h =>
      simp only [getDescendantAccountIdsAux] at h
      have hidS : id ∈ S := hstk id (by simp)
      apply ih _ _ _ h
      · intro x hx
        rcases List.mem_append.1 hx with hx2 | hx2
        · rw [List.mem_reverse] at hx2
          rcases List.mem_map.1 hx2 with ⟨c, hc, rfl⟩
          rcases List.mem_filter.1 hc with ⟨hmem, hpar⟩
          exact hS id hidS c hmem (by simpa using hpar)
        · exact hstk x (by simp [hx2])
      · intro x hx
        by_cases hmem : id ∈ result
        · rw [if_pos hmem] at hx
          exact hres x hx
        · rw [if_neg hmem] at hx
          rcases List.mem_append.1 hx with hx2 | hx2
          · exact hres x hx2
          · have : x = id := by simpa using hx2
            subst this
            exact hidS

/-- C7: with an acyclic parent relation (a rank certificate), the
descendant worklist terminates — the exhibited fuel is enough — and the
resulting set contains `rootId` itself and includes the whole descendant
set of every direct child of `rootId`. -/
theorem C7_descendant_ids (rootId : String) (allAccounts : List Account)
    (rank : String → Nat)
    (hcert : ∀ c ∈ allAccounts, ∀ pid, c.parentId = some pid → rank c.id < rank pid) :
    ∃ r, getDescendantAccountIds rootId allAccounts
        ((allAccounts.length + 1) ^ rank rootId) = some r ∧
      rootId ∈ r ∧
      ∀ c ∈ allAccounts, c.parentId = some rootId →
        ∃ rc, getDescendantAccountIds c.id allAccounts
            ((allAccounts.length + 1) ^ rank c.id) = some rc ∧
          ∀ x ∈ rc, x ∈ r := by
  have hrootMeasure : stackMeasure rank (allAccounts.length + 1) [rootId] ≤
      (allAccounts.length + 1) ^ rank rootId := by
    simp [stackMeasure]
  rcases getDescendantAccountIdsAux_terminates allAccounts rank hcert _ [rootId] []
    hrootMeasure with ⟨r, hr⟩
  have hclosed : ∀ i ∈ r, ∀ c ∈ allAccounts, c.parentId = some i → c.id ∈ r :=
    getDescendantAccountIdsAux_closed allAccounts _ [rootId] [] r hr
      (by intro i hi; cases hi)
  have hroot : rootId ∈ r :=
    (getDescendantAccountIdsAux_mem allAccounts _ [rootId] [] r hr).2 rootId (by simp)
  refine ⟨r, hr, hroot, ?_⟩
  intro c hc hpar
  have hcidMeasure : stackMeasure rank (allAccounts.length + 1) [c.id] ≤
      (allAccounts.length + 1) ^ rank c.id := by
    simp [stackMeasure]
  rcases getDescendantAccountIdsAux_terminates allAccounts rank hcert _ [c.id] []
    hcidMeasure with ⟨rc, hrc⟩
  refine ⟨rc, hrc, ?_⟩
  apply getDescendantAccountIdsAux_minimal allAccounts r hclosed _ [c.id] [] rc hrc
  · intro x hx
    have : x = c.id := by simpa using hx
    subst this
    exact hclosed rootId hroot c hc hpar
  · intro x hx
    cases hx

/-- C7 witness: the concrete two-account hierarchy, with the rank
certificate discharged. -/
theorem C7_witness :
    ∃ r, getDescendantAccountIds "A" sampleAccounts
        ((sampleAccounts.length + 1) ^ sampleRank "A") = some r ∧
      "A" ∈ r ∧
      ∀ c ∈ sampleAccounts, c.parentId = some "A" →
        ∃ rc, getDescendantAccountIds c.id sampleAccounts
            ((sampleAccounts.length + 1) ^ sampleRank c.id) = some rc ∧
          ∀ x ∈ rc, x ∈ r :=
  C7_descendant_ids "A" sampleAccounts sampleRank
    (by
      intro c hc pid hp
      fin_cases hc
      · simp at hp
      · have : pid = "A" := by simpa [sampleAccounts] using hp.symm
        subst this
        decide)

/-! ## Ancestor path

`getAccountPath` (lines 73-89): a `while` loop prepending parent names,
with a hard depth ceiling of 20 as a cycle guard — so the recursion is
structurally bounded and needs no acyclicity assumption. -/

/-- The ancestry loop of `getAccountPath`; the fuel is the remaining
allowance of the `depth < 20` guard. -/
def getAccountPathAux : Nat → Account → List Account → String → String
  | 0, _, _, path => path
  | fuel + 1, current, allAccounts, path =>
    match current.parentId with
    | none => path
    | some pid =>
      match allAccounts.find? (fun a => a.id = pid) with
      | none => path
      | some parent => getAccountPathAux fuel parent allAccounts (parent.name ++ ":" ++ path)

/-- `getAccountPath` from `ledgerService.ts` lines 73-89. -/
def getAccountPath (account : Account) (allAccounts : List Account) : String :=
  getAccountPathAux 20 account allAccounts account.name

/-- The chain of ancestors the loop visits, nearest first, truncated at
the given depth ceiling. -/
def ancestorChain : Nat → Account → List Account → List Account
  | 0, _, _ => []
  | fuel + 1, current, allAccounts =>
    match current.parentId with
    | none => []
    | some pid =>
      match allAccounts.find? (fun a => a.id = pid) with
      | none => []
      | some parent => parent :: ancestorChain fuel parent allAccounts

/-- Modelled from the spec: "walks ancestors joining names with a
separator (root...leaf), root first" — the colon-join of a name list. -/
def specJoinPath : List String → String
  | [] => ""
  | [s] => s
  | s :: rest => s ++ ":" ++ specJoinPath rest

theorem specJoinPath_append_colon (L : List String) (a b : String) :
    specJoinPath (L ++ [a ++ ":" ++ b]) = specJoinPath (L ++ [a, b]) := by
  induction L with
  | nil => rfl
  | cons s L ih =>
    match L with
    | [] =>
      show specJoinPath [s, a ++ ":" ++ b] = specJoinPath [s, a, b]
      show s ++ ":" ++ (a ++ ":" ++ b) = s ++ ":" ++ specJoinPath [a, b]
      rfl
    | t :: L2 =>
      show s ++ ":" ++ specJoinPath ((t :: L2) ++ [a ++ ":" ++ b]) =
        s ++ ":" ++ specJoinPath ((t :: L2) ++ [a, b])
      rw [ih]

theorem getAccountPathAux_spec (fuel : Nat) (current : Account)
    (allAccounts : List Account) (path : String) :
    getAccountPathAux fuel current allAccounts path =
      specJoinPath ((ancestorChain fuel current allAccounts).reverse.map
        (fun a => a.name) ++ [path]) := by
  induction fuel generalizing current path with
  | zero => rfl
  | succ f ih =>
    cases hpid : current.parentId with
    | none => simp [getAccountPathAux, ancestorChain, hpid, specJoinPath]
    | some pid =>
      cases hfind : allAccounts.find? (fun a => a.id = pid) with
      | none => simp [getAccountPathAux, ancestorChain, hpid, hfind, specJoinPath]
      | some parent =>
        simp only [getAccountPathAux, ancestorChain, hpid, hfind]
        rw [ih parent (parent.name ++ ":" ++ path)]
        simp only [List.reverse_cons, List.map_append, List.map_cons, List.map_nil,
          List.append_assoc, List.cons_append, List.nil_append]
        exact specJoinPath_append_colon _ parent.name path

theorem ancestorChain_length (fuel : Nat) (current : Account) (allAccounts : List Account) :
    (ancestorChain fuel current allAccounts).length ≤ fuel := by
  induction fuel generalizing current with
  | zero => simp [ancestorChain]
  | succ f ih =>
    cases hpid : current.parentId with
    | none => simp [ancestorChain, hpid]
    | some pid =>
      cases hfind : allAccounts.find? (fun a => a.id = pid) with
      | none => simp [ancestorChain, hpid, hfind]
      | some parent =>
        have := ih parent
        simp only [ancestorChain, hpid, hfind, List.length_cons]
        omega

/-- C8: `getAccountPath` always terminates, walking at most 20 ancestor
steps (the cycle ceiling), and returns the visited ancestor names joined
root-first with the `:` separator around the account's own name; when the
walk is cut off by the ceiling (or by a missing parent) the returned value
is the partial path accumulated so far rather than a failure. -/
theorem C8_path_ceiling (account : Account) (allAccounts : List Account) :
    getAccountPath account allAccounts =
      specJoinPath ((ancestorChain 20 account allAccounts).reverse.map
        (fun a => a.name) ++ [account.name]) ∧
    (ancestorChain 20 account allAccounts).length ≤ 20 :=
  ⟨getAccountPathAux_spec 20 account allAccounts account.name,
   ancestorChain_length 20 account allAccounts⟩

/-! ## Transaction codec

`serializeTransactionsToCSV` (lines 195-206) and
`parseTransactionsFromCSV` (lines 209-278).  All scanning is embedded over
`List Char`.  The parser first counts fields with the quote-aware regex
(`matches.length < 7` skips the row), then re-splits the line with the
character loop, strips outer quotes, groups rows by transaction id in
insertion order (the JS `Map`) and finally sorts by `createdAt`
descending with the stable JS comparator sort. -/

/-- The ECMAScript whitespace and line-terminator set removed by
`String.prototype.trim`. -/
def jsWhitespace (c : Char) : Bool :=
  c.val == 9 || c.val == 10 || c.val == 11 || c.val == 12 || c.val == 13 ||
  c.val == 32 || c.val == 160 || c.val == 0x1680 ||
  (0x2000 ≤ c.val && c.val ≤ 0x200A) ||
  c.val == 0x2028 || c.val == 0x2029 || c.val == 0x202F || c.val == 0x205F ||
  c.val == 0x3000 || c.val == 0xFEFF

/-- `line.trim()`. -/
def jsTrim (l : List Char) : List Char :=
  ((l.dropWhile jsWhitespace).reverse.dropWhile jsWhitespace).reverse

/-- The `csvContent.split(/\r?\n/)` loop: split at `\n`, consuming one
`\r` immediately before it; a lone `\r` stays in its line. -/
def splitLinesAux : List Char → List Char → List (List Char)
  | [], acc => [acc.reverse]
  | c :: rest, acc =>
    if c = '\n' then
      (if acc.head? = some '\r' then acc.tail.reverse else acc.reverse) ::
        splitLinesAux rest []
    else splitLinesAux rest (c :: acc)

/-- `csvContent.split(/\r?\n/)`. -/
def splitLines (l : List Char) : List (List Char) :=
  splitLinesAux l []

/-- `.replace(/"/g, '""')` in the serializer. -/
def escapeQuotes : List Char → List Char
  | [] => []
  | c :: rest => if c = '"' then '"' :: '"' :: escapeQuotes rest else c :: escapeQuotes rest

/-- `.replace(/""/g, '"')`: left-to-right, non-overlapping. -/
def unescapeQuotes : List Char → List Char
  | [] => []
  | [c] => [c]
  | c :: d :: rest =>
    if c = '"' ∧ d = '"' then '"' :: unescapeQuotes rest
    else c :: unescapeQuotes (d :: rest)

/-- The header row of the storage CSV (without its trailing newline). -/
def csvHeader : List Char :=
  "Transaction ID,Date,Created At,Payee,Description,Account ID,Amount".data

/-- One output row per split, from the template literal in
`serializeTransactionsToCSV`. -/
def serializeRow (tx : Transaction) (split : Split) : List Char :=
  tx.id.data ++ ',' :: tx.date.data ++ ',' :: (natToStr tx.createdAt).data ++ ',' ::
    '"' :: escapeQuotes (tx.payee.getD "").data ++ '"' :: ',' ::
    '"' :: escapeQuotes (tx.description.getD "").data ++ '"' :: ',' ::
    split.accountId.data ++ ',' :: (intToStr split.amount).data

/-- `rows.join('\n')`. -/
def joinLines : List (List Char) → List Char
  | [] => []
  | [l] => l
  | l :: rest => l ++ '\n' :: joinLines rest

/-- `serializeTransactionsToCSV` from `ledgerService.ts` lines 195-206. -/
def serializeTransactionsToCSV (transactions : List Transaction) : String :=
  String.mk (csvHeader ++ '\n' ::
    joinLines ((transactions.map (fun tx => tx.splits.map (serializeRow tx))).flatten))

/-- The hand-written `for(let char of line)` field splitter of the parser
(accumulator kept reversed). -/
def charFieldsGo : List Char → Bool → List Char → List (List Char)
  | [], _, currentVal => [currentVal.reverse]
  | c :: rest, inQuote, currentVal =>
    if c = '"' then charFieldsGo rest (!inQuote) currentVal
    else if c = ',' then
      if inQuote then charFieldsGo rest inQuote (c :: currentVal)
      else currentVal.reverse :: charFieldsGo rest inQuote []
    else charFieldsGo rest inQuote (c :: currentVal)

/-- The parser's character-loop field split of one line. -/
def charFields (line : List Char) : List (List Char) :=
  charFieldsGo line false []

/-- Strip a leading and trailing quote and un-double inner quotes — the
`cleanRow` mapping of the parser. -/
def cleanCell (c : List Char) : List Char :=
  if c.head? = some '"' ∧ c.getLast? = some '"' then unescapeQuotes ((c.drop 1).dropLast)
  else c

/-- The quoted-field part `"([^"]*(?:""[^"]*)*)"` of the field regex,
entered after the opening quote: returns the raw captured content and the
suffix after the closing quote.  (On text whose quotes do not pair up the
backtracking regex can close earlier where this scanner fails; no claim
exercises such lines.) -/
def scanQuoted : List Char → Option (List Char × List Char)
  | [] => none
  | c :: rest =>
    if c = '"' then
      match rest with
      | r :: rest2 =>
        if r = '"' then
          match scanQuoted rest2 with
          | some p => some ('"' :: '"' :: p.1, p.2)
          | none => none
        else some ([], rest)
      | [] => some ([], rest)
    else
      match scanQuoted rest with
      | some p => some (c :: p.1, p.2)
      | none => none

/-- One field match of the regex after its `(?:^|,)` anchor: quoted
alternative first (capture un-doubled, as the parser stores it), else the
unquoted run `[^",]*`; returns the capture and the unconsumed suffix. -/
def regexField (s : List Char) : List Char × List Char :=
  match s with
  | [] => ([], [])
  | c :: rest =>
    if c = '"' then
      match scanQuoted rest with
      | some p => (unescapeQuotes p.1, p.2)
      | none => ([], s)
    else
      (s.takeWhile (fun ch => decide (ch ≠ '"' ∧ ch ≠ ',')),
       s.dropWhile (fun ch => decide (ch ≠ '"' ∧ ch ≠ ',')))

/-- `exec` forward search for the next `(?:^|,)` anchor when not at the
start: the suffix after the first comma at or beyond the current
position. -/
def splitAtComma : List Char → Option (List Char)
  | [] => none
  | c :: rest => if c = ',' then some rest else splitAtComma rest

/-- The repeated-`exec` loop from the second match on; each iteration
consumes at least the matched comma, so `s.length + 1` fuel never runs
out. -/
def regexLoopAux : Nat → List Char → List (List Char)
  | 0, _ => []
  | fuel + 1, s =>
    match splitAtComma s with
    | none => []
    | some after =>
      (regexField after).1 :: regexLoopAux fuel (regexField after).2

/-- The `while ((match = regex.exec(line)) !== null)` collection loop.
`none` models the JS infinite loop on an empty first match (a line
starting with `,` or an unpaired quote, where `lastIndex` never
advances). -/
def regexMatches (line : List Char) : Option (List (List Char)) :=
  match line with
  | [] => none
  | _ =>
    if (regexField line).2.length = line.length then none
    else some ((regexField line).1 :: regexLoopAux (line.length + 1) (regexField line).2)

/-- Parse one data line onto the accumulated transaction list (the JS
`Map`, modelled as an id-keyed list in insertion order): blank lines and
rows with fewer than 7 regex fields are skipped, otherwise the split is
appended to its transaction, creating it on first sight. -/
def parseDataRow (txs : List Transaction) (line : List Char) : Option (List Transaction) :=
  let trimmed := jsTrim line
  if trimmed = [] then some txs
  else
    match regexMatches trimmed with
    | none => none
    | some ms =>
      if ms.length < 7 then some txs
      else
        let cleanRow := (charFields trimmed).map cleanCell
        let id := String.mk (cleanRow.getD 0 [])
        let split : Split :=
          { accountId := String.mk (cleanRow.getD 5 [])
            amount := strToInt (String.mk (cleanRow.getD 6 [])) }
        if txs.any (fun t => t.id = id) then
          some (txs.map (fun t =>
            if t.id = id then { t with splits := t.splits ++ [split] } else t))
        else
          some (txs ++ [{ id := id
                          date := String.mk (cleanRow.getD 1 [])
                          payee := some (String.mk (cleanRow.getD 3 []))
                          description := some (String.mk (cleanRow.getD 4 []))
                          splits := [split]
                          createdAt := strToNat (String.mk (cleanRow.getD 2 [])) }])

/-- The parser's `for` loop over the data lines. -/
def parseRows : List Transaction → List (List Char) → Option (List Transaction)
  | txs, [] => some txs
  | txs, line :: rest =>
    match parseDataRow txs line with
    | none => none
    | some txs2 => parseRows txs2 rest

/-- Stable insertion step of the JS comparator sort with
`(a, b) => b.createdAt - a.createdAt`: `x` goes after every `y` with
`x.createdAt ≤ y.createdAt`. -/
def insertSorted (x : Transaction) : List Transaction → List Transaction
  | [] => [x]
  | y :: ys => if x.createdAt ≤ y.createdAt then y :: insertSorted x ys else x :: y :: ys

/-- `.sort((a, b) => b.createdAt - a.createdAt)` — a stable sort by
`createdAt` descending. -/
def sortByCreatedAtDesc (l : List Transaction) : List Transaction :=
  l.foldl (fun acc x => insertSorted x acc) []

/-- `parseTransactionsFromCSV` from `ledgerService.ts` lines 209-278;
`none` models divergence of the regex loop (never reached on the
serializer's own output). -/
def parseTransactionsFromCSV (csvContent : String) : Option (List Transaction) :=
  match splitLines csvContent.data with
  | [] => some []
  | _ :: dataLines =>
    match parseRows [] dataLines with
    | none => none
    | some txs => some (sortByCreatedAtDesc txs)

/-! ### Line-splitting lemmas -/

theorem splitLinesAux_no_nl (l : List Char) (h : ∀ c ∈ l, c ≠ '\n') :
    ∀ acc, splitLinesAux l acc = [acc.reverse ++ l] := by
  induction l with
  | nil => intro acc; simp [splitLinesAux]
  | cons c rest ih =>
    intro acc
    have hc : c ≠ '\n' := (h c (by simp))
    simp only [splitLinesAux, if_neg hc]
    rw [ih (fun x hx => h x (by simp [hx])) (c :: acc)]
    simp

theorem splitLinesAux_split (A : List Char) (hA : ∀ c ∈ A, c ≠ '\n' ∧ c ≠ '\r') :
    ∀ acc rest, (∀ c ∈ acc, c ≠ '\r') →
      splitLinesAux (A ++ '\n' :: rest) acc = (acc.reverse ++ A) :: splitLinesAux rest [] := by
  induction A with
  | nil =>
    intro acc rest hacc
    have hhead : acc.head? ≠ some '\r' := by
      intro hcon
      exact hacc '\r' (List.mem_of_mem_head? hcon) rfl
    simp only [List.nil_append, splitLinesAux, if_pos rfl]
    rw [if_neg hhead]
    simp
  | cons a A ih =>
    intro acc rest hacc
    have ha := hA a (by simp)
    simp only [List.cons_append, splitLinesAux, if_neg ha.1, List.append_eq]
    rw [ih (fun x hx => hA x (by simp [hx])) (a :: acc) rest]
    · simp
    · intro x hx
      rcases List.mem_cons.1 hx with rfl | hx
      · exact ha.2
      · exact hacc x hx

theorem splitLines_joinLines (rows : List (List Char)) (hne : rows ≠ [])
    (h : ∀ r ∈ rows, ∀ c ∈ r, c ≠ '\n' ∧ c ≠ '\r') :
    splitLines (joinLines rows) = rows := by
  induction rows with
  | nil => exact absurd rfl hne
  | cons r rest ih =>
    match rest with
    | [] =>
      show splitLinesAux r [] = [r]
      rw [splitLinesAux_no_nl r (fun c hc => (h r (by simp) c hc).1) []]
      simp
    | r2 :: rest2 =>
      show splitLinesAux (r ++ '\n' :: joinLines (r2 :: rest2)) [] = r :: r2 :: rest2
      rw [splitLinesAux_split r (h r (by simp)) [] _ (by intro c hc; cases hc)]
      simp only [List.reverse_nil, List.nil_append]
      rw [show splitLinesAux (joinLines (r2 :: rest2)) [] =
          splitLines (joinLines (r2 :: rest2)) from rfl]
      rw [ih (by simp) (fun x hx c hc => h x (by simp [hx]) c hc)]

theorem csvHeader_clean : ∀ c ∈ csvHeader, c ≠ '\n' ∧ c ≠ '\r' := by decide

theorem splitLines_serialized (rows : List (List Char))
    (h : ∀ r ∈ rows, ∀ c ∈ r, c ≠ '\n' ∧ c ≠ '\r') :
    splitLines (csvHeader ++ '\n' :: joinLines rows) =
      csvHeader :: (if rows = [] then [[]] else rows) := by
  show splitLinesAux (csvHeader ++ '\n' :: joinLines rows) [] = _
  rw [splitLinesAux_split csvHeader csvHeader_clean [] _ (by intro c hc; cases hc)]
  simp only [List.reverse_nil, List.nil_append]
  congr 1
  match rows with
  | [] => simp [joinLines, splitLines, splitLinesAux]
  | r :: rest =>
    rw [if_neg (by simp)]
    exact splitLines_joinLines (r :: rest) (by simp) h

/-! ### Parser traversal lemmas -/

theorem parseRows_append (S : List Transaction) (l1 l2 : List (List Char)) :
    parseRows S (l1 ++ l2) =
      match parseRows S l1 with
      | none => none
      | some S2 => parseRows S2 l2 := by
  induction l1 generalizing S with
  | nil => rfl
  | cons line rest ih =>
    show parseRows S (line :: (rest ++ l2)) = _
    simp only [parseRows]
    cases parseDataRow S line with
    | none => rfl
    | some S2 => exact ih S2

theorem parseDataRow_skip_malformed (S : List Transaction) (line : List Char)
    (hnb : jsTrim line ≠ []) (ms : List (List Char))
    (hm : regexMatches (jsTrim line) = some ms) (hlen : ms.length < 7) :
    parseDataRow S line = some S := by
  unfold parseDataRow
  rw [if_neg hnb, hm]
  simp only [if_pos hlen]

/-- C9 amended: a non-blank data row whose regex split yields fewer than 7
fields contributes no transaction and no split — but the skip is silent:
the parse of the file with the row inserted is identical to the parse of
the file without it, and the function's only output is the transaction
list, so no warning channel reports the skip. -/
theorem C9_malformed_row_skipped_silently (pre post : List (List Char)) (line : List Char)
    (hall : ∀ r ∈ pre ++ post, ∀ c ∈ r, c ≠ '\n' ∧ c ≠ '\r')
    (hline : ∀ c ∈ line, c ≠ '\n' ∧ c ≠ '\r')
    (hnb : jsTrim line ≠ [])
    (hm : ∃ ms, regexMatches (jsTrim line) = some ms ∧ ms.length < 7) :
    parseTransactionsFromCSV (String.mk (csvHeader ++ '\n' :: joinLines (pre ++ line :: post))) =
      parseTransactionsFromCSV (String.mk (csvHeader ++ '\n' :: joinLines (pre ++ post))) := by
  rcases hm with ⟨ms, hm, hlen⟩
  have hmid : ∀ r ∈ pre ++ line :: post, ∀ c ∈ r, c ≠ '\n' ∧ c ≠ '\r' := by
    intro r hr
    rcases List.mem_append.1 hr with hr | hr
    · exact hall r (List.mem_append.2 (Or.inl hr))
    · rcases List.mem_cons.1 hr with rfl | hr
      · exact hline
      · exact hall r (List.mem_append.2 (Or.inr hr))
  show parseTransactionsFromCSV ⟨csvHeader ++ '\n' :: joinLines (pre ++ line :: post)⟩ = _
  unfold parseTransactionsFromCSV
  rw [show (String.mk (csvHeader ++ '\n' :: joinLines (pre ++ line :: post))).data =
      csvHeader ++ '\n' :: joinLines (pre ++ line :: post) from rfl,
    show (String.mk (csvHeader ++ '\n' :: joinLines (pre ++ post))).data =
      csvHeader ++ '\n' :: joinLines (pre ++ post) from rfl,
    splitLines_serialized _ hmid, splitLines_serialized _ hall]
  rw [if_neg (show ¬(pre ++ line :: post = []) by simp)]
  have hskip : ∀ S, parseDataRow S line = some S := fun S =>
    parseDataRow_skip_malformed S line hnb ms hm hlen
  match hpp : pre ++ post with
  | [] =>
    rcases List.append_eq_nil.1 hpp with ⟨rfl, rfl⟩
    have hempty : parseDataRow ([] : List Transaction) [] = some [] := rfl
    simp only [List.nil_append, if_pos rfl]
    show (match parseRows [] [line] with
      | none => none
      | some txs => some (sortByCreatedAtDesc txs)) =
      (match parseRows [] [[]] with
      | none => none
      | some txs => some (sortByCreatedAtDesc txs))
    simp only [parseRows, hskip, hempty]
  | l0 :: lrest =>
    rw [if_neg (by simp [hpp])]
    rw [← hpp]
    have hsplit : parseRows [] (pre ++ line :: post) = parseRows [] (pre ++ post) := by
      rw [parseRows_append [] pre (line :: post), parseRows_append [] pre post]
      cases parseRows [] pre with
      | none => rfl
      | some S2 =>
        show parseRows S2 (line :: post) = parseRows S2 post
        simp only [parseRows, hskip S2]
    show (match parseRows [] (pre ++ line :: post) with
      | none => none
      | some txs => some (sortByCreatedAtDesc txs)) =
      (match parseRows [] (pre ++ post) with
      | none => none
      | some txs => some (sortByCreatedAtDesc txs))
    rw [hsplit]

/-- C9 witness: the four-field row `a,b,c,d` inserted as the only data
row parses to the same result as the file without it. -/
theorem C9_witness :
    parseTransactionsFromCSV (String.mk (csvHeader ++ '\n' ::
        joinLines ([] ++ ('a' :: ',' :: 'b' :: ',' :: 'c' :: ',' :: 'd' :: []) :: []))) =
      parseTransactionsFromCSV (String.mk (csvHeader ++ '\n' :: joinLines ([] ++ []))) :=
  C9_malformed_row_skipped_silently [] [] ('a' :: ',' :: 'b' :: ',' :: 'c' :: ',' :: 'd' :: [])
    (by decide) (by decide) (by decide)
    ⟨[['a'], ['b'], ['c'], ['d']], by decide, by decide⟩

/-- C9 counterexample: the claim asserts the skip "is reported via a
warning channel alongside the primary result rather than vanishing
without trace"; but on the concrete file whose one data row is `a,b,c,d`
the parse output equals both `some []` and the output on the file with no
data rows at all — the malformed row vanishes from the only channel the
function returns, so no warning accompanies the result. -/
theorem C9_counterexample :
    parseTransactionsFromCSV (String.mk (csvHeader ++ '\n' ::
        ('a' :: ',' :: 'b' :: ',' :: 'c' :: ',' :: 'd' :: []))) = some [] ∧
    parseTransactionsFromCSV (String.mk (csvHeader ++ '\n' ::
        ('a' :: ',' :: 'b' :: ',' :: 'c' :: ',' :: 'd' :: []))) =
      parseTransactionsFromCSV (String.mk csvHeader) := by
  constructor <;> decide

/-! ### Character facts for the serialized rows -/

theorem natToStr_chars (n : Nat) :
    ∀ c ∈ (natToStr n).data, ∃ d, d < 10 ∧ c = digitChar d := by
  intro c hc
  have : (natToStr n).data = (natDigits n).map digitChar := rfl
  rw [this] at hc
  rcases List.mem_map.1 hc with ⟨d, hd, rfl⟩
  exact ⟨d, natDigits_lt_ten n d hd, rfl⟩

theorem natToStr_ne_nil (n : Nat) : (natToStr n).data ≠ [] := by
  have : (natToStr n).data = (natDigits n).map digitChar := rfl
  rw [this]
  simpa using natDigits_ne_nil n

theorem digitChar_clean (d : Nat) (h : d < 10) :
    digitChar d ≠ ',' ∧ digitChar d ≠ '"' ∧ digitChar d ≠ '\n' ∧ digitChar d ≠ '\r' ∧
      jsWhitespace (digitChar d) = false := by
  interval_cases d <;> decide

theorem minus_clean :
    ('-' : Char) ≠ ',' ∧ ('-' : Char) ≠ '"' ∧ ('-' : Char) ≠ '\n' ∧ ('-' : Char) ≠ '\r' ∧
      jsWhitespace '-' = false := by decide

theorem intToStr_chars (i : Int) :
    ∀ c ∈ (intToStr i).data, c = '-' ∨ ∃ d, d < 10 ∧ c = digitChar d := by
  intro c hc
  unfold intToStr at hc
  by_cases hneg : i < 0
  · rw [if_pos hneg] at hc
    have : ("-" ++ natToStr i.natAbs).data = '-' :: (natToStr i.natAbs).data := rfl
    rw [this] at hc
    rcases List.mem_cons.1 hc with rfl | hc
    · exact Or.inl rfl
    · exact Or.inr (natToStr_chars _ c hc)
  · rw [if_neg hneg] at hc
    exact Or.inr (natToStr_chars _ c hc)

theorem intToStr_ne_nil (i : Int) : (intToStr i).data ≠ [] := by
  unfold intToStr
  by_cases hneg : i < 0
  · rw [if_pos hneg]
    intro hcon
    have : ("-" ++ natToStr i.natAbs).data = '-' :: (natToStr i.natAbs).data := rfl
    rw [this] at hcon
    cases hcon
  · rw [if_neg hneg]
    exact natToStr_ne_nil _

/-! ### Escaping -/

theorem escapeQuotes_no_quote (l : List Char) (h : ∀ c ∈ l, c ≠ '"') :
    escapeQuotes l = l := by
  induction l with
  | nil => rfl
  | cons c rest ih =>
    have hc : c ≠ '"' := h c (by simp)
    simp only [escapeQuotes, if_neg hc]
    rw [ih (fun x hx => h x (by simp [hx]))]

theorem unescapeQuotes_no_quote (l : List Char) (h : ∀ c ∈ l, c ≠ '"') :
    unescapeQuotes l = l := by
  induction l with
  | nil => rfl
  | cons c rest ih =>
    match rest with
    | [] => rfl
    | d :: rest2 =>
      have hc : c ≠ '"' := h c (by simp)
      have hcond : ¬(c = '"' ∧ d = '"') := fun hcon => hc hcon.1
      simp only [unescapeQuotes, if_neg hcond]
      have := ih (fun x hx => h x (by simp [List.mem_cons.1 hx]))
      rw [this]

/-! ### Trim is the identity on the serialized rows -/

theorem jsTrim_eq_self (l : List Char)
    (hh : ∀ c, l.head? = some c → jsWhitespace c = false)
    (hl : ∀ c, l.getLast? = some c → jsWhitespace c = false) :
    jsTrim l = l := by
  match l with
  | [] => rfl
  | x :: xs =>
    have hx : jsWhitespace x = false := hh x rfl
    unfold jsTrim
    rw [List.dropWhile_cons_of_neg (by simp [hx])]
    match hrev : (x :: xs).reverse with
    | [] => exact absurd hrev (by simp)
    | y :: ys =>
      have hy : (x :: xs).getLast? = some y := by
        rw [← List.head?_reverse, hrev]
        rfl
      have hwy : jsWhitespace y = false := hl y hy
      rw [List.dropWhile_cons_of_neg (by simp [hwy]), ← hrev, List.reverse_reverse]

/-! ### Character-loop field splitting on well-formed rows -/

theorem charFieldsGo_plain (A : List Char) (hA : ∀ c ∈ A, c ≠ '"' ∧ c ≠ ',') :
    ∀ rest acc, charFieldsGo (A ++ ',' :: rest) false acc =
      (acc.reverse ++ A) :: charFieldsGo rest false [] := by
  induction A with
  | nil =>
    intro rest acc
    have hq : (',' : Char) ≠ '"' := by decide
    simp only [List.nil_append, charFieldsGo, if_neg hq, if_pos rfl, Bool.false_eq_true,
      if_false]
    simp
  | cons a A ih =>
    intro rest acc
    have ha := hA a (by simp)
    simp only [List.cons_append, charFieldsGo, if_neg ha.1, if_neg ha.2, List.append_eq]
    rw [ih (fun x hx => hA x (by simp [hx])) rest (a :: acc)]
    simp

theorem charFieldsGo_quoted_inner (P : List Char) (hP : ∀ c ∈ P, c ≠ '"') :
    ∀ rest acc, charFieldsGo (P ++ '"' :: ',' :: rest) true acc =
      (acc.reverse ++ P) :: charFieldsGo rest false [] := by
  induction P with
  | nil =>
    intro rest acc
    have hq : (',' : Char) ≠ '"' := by decide
    simp only [List.nil_append, charFieldsGo, if_pos rfl, Bool.not_true, if_neg hq,
      Bool.false_eq_true, if_false]
    simp
  | cons p P ih =>
    intro rest acc
    have hp := hP p (by simp)
    have hrec := ih (fun x hx => hP x (by simp [hx])) rest (p :: acc)
    by_cases hpc : p = ','
    · simp only [List.cons_append, charFieldsGo, if_neg hp, if_pos hpc, if_true,
        List.append_eq]
      rw [hrec]
      simp
    · simp only [List.cons_append, charFieldsGo, if_neg hp, if_neg hpc, List.append_eq]
      rw [hrec]
      simp

theorem charFieldsGo_quoted (P : List Char) (hP : ∀ c ∈ P, c ≠ '"')
    (rest acc : List Char) :
    charFieldsGo ('"' :: P ++ '"' :: ',' :: rest) false acc =
      (acc.reverse ++ P) :: charFieldsGo rest false [] := by
  show charFieldsGo ('"' :: (P ++ '"' :: ',' :: rest)) false acc = _
  simp only [charFieldsGo, if_pos rfl, Bool.not_false]
  exact charFieldsGo_quoted_inner P hP rest acc

theorem charFieldsGo_final (F : List Char) (hF : ∀ c ∈ F, c ≠ '"' ∧ c ≠ ',') :
    ∀ acc, charFieldsGo F false acc = [acc.reverse ++ F] := by
  induction F with
  | nil => intro acc; simp [charFieldsGo]
  | cons f F ih =>
    intro acc
    have hf := hF f (by simp)
    simp only [charFieldsGo, if_neg hf.1, if_neg hf.2]
    rw [ih (fun x hx => hF x (by simp [hx])) (f :: acc)]
    simp

/-- A quoted field followed by a comma and the rest of the row. -/
def rowQuoted (X rest : List Char) : List Char :=
  ('"' :: X) ++ ('"' :: (',' :: rest))

/-- The shape of one serialized row, fully right-nested. -/
def rowShape (ID DATE CA P D ACC AMT : List Char) : List Char :=
  ID ++ (',' :: (DATE ++ (',' :: (CA ++ (',' ::
    rowQuoted P (rowQuoted D (ACC ++ (',' :: AMT))))))))

theorem charFields_serialized (ID DATE CA P D ACC AMT : List Char)
    (hID : ∀ c ∈ ID, c ≠ '"' ∧ c ≠ ',') (hDATE : ∀ c ∈ DATE, c ≠ '"' ∧ c ≠ ',')
    (hCA : ∀ c ∈ CA, c ≠ '"' ∧ c ≠ ',') (hP : ∀ c ∈ P, c ≠ '"')
    (hD : ∀ c ∈ D, c ≠ '"') (hACC : ∀ c ∈ ACC, c ≠ '"' ∧ c ≠ ',')
    (hAMT : ∀ c ∈ AMT, c ≠ '"' ∧ c ≠ ',') :
    charFields (rowShape ID DATE CA P D ACC AMT) = [ID, DATE, CA, P, D, ACC, AMT] := by
  unfold charFields rowShape rowQuoted
  rw [charFieldsGo_plain ID hID, charFieldsGo_plain DATE hDATE, charFieldsGo_plain CA hCA,
    charFieldsGo_quoted P hP, charFieldsGo_quoted D hD, charFieldsGo_plain ACC hACC,
    charFieldsGo_final AMT hAMT]
  simp

theorem cleanCell_no_quote (l : List Char) (h : ∀ c ∈ l, c ≠ '"') :
    cleanCell l = l := by
  unfold cleanCell
  match l with
  | [] => simp
  | x :: xs =>
    have hx : x ≠ '"' := h x (by simp)
    rw [if_neg]
    intro hcon
    exact hx (by simpa using hcon.1)

/-! ### Regex field matching on well-formed rows -/

theorem takeWhile_plain (A : List Char) (hA : ∀ c ∈ A, c ≠ '"' ∧ c ≠ ',') (B : List Char) :
    (A ++ ',' :: B).takeWhile (fun ch => decide (ch ≠ '"' ∧ ch ≠ ',')) = A ∧
      (A ++ ',' :: B).dropWhile (fun ch => decide (ch ≠ '"' ∧ ch ≠ ',')) = ',' :: B := by
  induction A with
  | nil =>
    constructor
    · rw [List.nil_append, List.takeWhile_cons]
      simp
    · rw [List.nil_append, List.dropWhile_cons]
      simp
  | cons a A ih =>
    have ha := hA a (by simp)
    rcases ih (fun x hx => hA x (by simp [hx])) with ⟨iht, ihd⟩
    constructor
    · rw [List.cons_append, List.takeWhile_cons, if_pos (by simp [ha.1, ha.2]), iht]
    · rw [List.cons_append, List.dropWhile_cons, if_pos (by simp [ha.1, ha.2]), ihd]

theorem takeWhile_all (F : List Char) (hF : ∀ c ∈ F, c ≠ '"' ∧ c ≠ ',') :
    F.takeWhile (fun ch => decide (ch ≠ '"' ∧ ch ≠ ',')) = F ∧
      F.dropWhile (fun ch => decide (ch ≠ '"' ∧ ch ≠ ',')) = [] := by
  induction F with
  | nil => exact ⟨rfl, rfl⟩
  | cons f F ih =>
    have hf := hF f (by simp)
    rcases ih (fun x hx => hF x (by simp [hx])) with ⟨iht, ihd⟩
    constructor
    · rw [List.takeWhile_cons, if_pos (by simp [hf.1, hf.2]), iht]
    · rw [List.dropWhile_cons, if_pos (by simp [hf.1, hf.2]), ihd]

theorem regexField_plain (A : List Char) (hA : ∀ c ∈ A, c ≠ '"' ∧ c ≠ ',')
    (B : List Char) : regexField (A ++ ',' :: B) = (A, ',' :: B) := by
  rcases takeWhile_plain A hA B with ⟨ht, hd⟩
  match A with
  | [] =>
    show regexField (',' :: B) = ([], ',' :: B)
    have hq : (',' : Char) ≠ '"' := by decide
    simp only [regexField, if_neg hq]
    rw [List.nil_append] at ht hd
    rw [ht, hd]
  | a :: A2 =>
    show regexField (a :: (A2 ++ ',' :: B)) = (a :: A2, ',' :: B)
    have ha := hA a (by simp)
    simp only [regexField, if_neg ha.1]
    rw [show a :: (A2 ++ ',' :: B) = (a :: A2) ++ ',' :: B from rfl, ht, hd]

theorem regexField_all (F : List Char) (hF : ∀ c ∈ F, c ≠ '"' ∧ c ≠ ',') :
    regexField F = (F, []) := by
  rcases takeWhile_all F hF with ⟨ht, hd⟩
  match F with
  | [] => rfl
  | f :: F2 =>
    have hf := hF f (by simp)
    simp only [regexField, if_neg hf.1]
    rw [ht, hd]

theorem scanQuoted_clean (P : List Char) (hP : ∀ c ∈ P, c ≠ '"') (B : List Char) :
    scanQuoted (P ++ ('"' :: (',' :: B))) = some (P, ',' :: B) := by
  induction P with
  | nil =>
    show scanQuoted ('"' :: (',' :: B)) = some ([], ',' :: B)
    simp [scanQuoted]
  | cons p P2 ih =>
    have hp := hP p (by simp)
    have ih2 := ih (fun x hx => hP x (by simp [hx]))
    show scanQuoted (p :: (P2 ++ ('"' :: (',' :: B)))) = some (p :: P2, ',' :: B)
    unfold scanQuoted
    rw [if_neg hp, ih2]

theorem regexField_quoted (P : List Char) (hP : ∀ c ∈ P, c ≠ '"') (B : List Char) :
    regexField (('"' :: P) ++ ('"' :: (',' :: B))) = (P, ',' :: B) := by
  show regexField ('"' :: (P ++ ('"' :: (',' :: B)))) = _
  simp [regexField, scanQuoted_clean P hP B, unescapeQuotes_no_quote P hP]

theorem scanQuoted_length : ∀ (n : Nat) (l : List Char), l.length ≤ n →
    ∀ p : List Char × List Char, scanQuoted l = some p → p.2.length ≤ l.length := by
  intro n
  induction n with
  | zero =>
    intro l hl p h
    match l, hl with
    | [], _ => cases h
  | succ n ih =>
    intro l hl p h
    match l with
    | [] => cases h
    | c :: rest =>
      match rest with
      | [] =>
        by_cases hc : c = '"'
        · simp only [scanQuoted, if_pos hc] at h
          cases h
          simp
        · simp only [scanQuoted, if_neg hc] at h
          cases h
      | r :: rest2 =>
        by_cases hc : c = '"'
        · by_cases hr : r = '"'
          · simp only [scanQuoted, if_pos hc, if_pos hr] at h
            match hscan : scanQuoted rest2, h with
            | some q, h =>
              have hq : q.2.length ≤ rest2.length :=
                ih rest2 (by simp at hl; omega) q hscan
              cases h
              simp only [List.length_cons]
              omega
            | none, h => cases h
          · simp only [scanQuoted, if_pos hc, if_neg hr] at h
            cases h
            simp
        · simp only [scanQuoted, if_neg hc] at h
          match hscan : scanQuoted (r :: rest2), h with
          | some q, h =>
            have hq : q.2.length ≤ (r :: rest2).length :=
              ih (r :: rest2) (by simp at hl ⊢; omega) q hscan
            cases h
            simp only [List.length_cons] at hq ⊢
            omega
          | none, h => cases h

theorem length_dropWhile_le (p : Char → Bool) (l : List Char) :
    (l.dropWhile p).length ≤ l.length := by
  induction l with
  | nil => simp
  | cons c rest ih =>
    rw [List.dropWhile_cons]
    split
    · simp only [List.length_cons]
      omega
    · simp

theorem regexField_length (s : List Char) : (regexField s).2.length ≤ s.length := by
  match s with
  | [] => simp [regexField]
  | c :: rest =>
    by_cases hc : c = '"'
    · simp only [regexField, if_pos hc]
      match hscan : scanQuoted rest with
      | some q =>
        have := scanQuoted_length rest.length rest (le_refl _) q hscan
        simp only [List.length_cons]
        omega
      | none => simp
    · simp only [regexField, if_neg hc]
      exact length_dropWhile_le _ _

theorem splitAtComma_length : ∀ (s after : List Char), splitAtComma s = some after →
    after.length < s.length := by
  intro s
  induction s with
  | nil => intro after h; cases h
  | cons c rest ih =>
    intro after h
    by_cases hc : c = ','
    · rw [show splitAtComma (c :: rest) =
          if c = ',' then some rest else splitAtComma rest from rfl, if_pos hc] at h
      cases h
      simp
    · rw [show splitAtComma (c :: rest) =
          if c = ',' then some rest else splitAtComma rest from rfl, if_neg hc] at h
      have := ih after h
      simp only [List.length_cons]
      omega

theorem regexLoopAux_nil (fuel : Nat) : regexLoopAux fuel [] = [] := by
  cases fuel <;> rfl

theorem regexLoopAux_canon (fuel : Nat) :
    ∀ s : List Char, s.length < fuel → regexLoopAux fuel s = regexLoopAux (s.length + 1) s := by
  induction fuel using Nat.strong_induction_on with
  | _ fuel ih =>
    intro s hs
    match fuel, hs with
    | f + 1, hs =>
      simp only [regexLoopAux]
      match hsp : splitAtComma s with
      | none => rfl
      | some after =>
        have hafter : after.length < s.length := splitAtComma_length s after hsp
        have hX : (regexField after).2.length ≤ after.length := regexField_length after
        show (regexField after).1 :: regexLoopAux f (regexField after).2 =
          (regexField after).1 :: regexLoopAux s.length (regexField after).2
        rw [ih f (by omega) (regexField after).2 (by omega),
          ih s.length (by omega) (regexField after).2 (by omega)]

theorem regexLoopAux_step (fuel : Nat) (s after : List Char) (hf : s.length < fuel)
    (hsp : splitAtComma s = some after) :
    regexLoopAux fuel s =
      (regexField after).1 :: regexLoopAux fuel (regexField after).2 := by
  have hafter : after.length < s.length := splitAtComma_length s after hsp
  have hX : (regexField after).2.length ≤ after.length := regexField_length after
  match fuel, hf with
  | f + 1, hf =>
    have hL : regexLoopAux (f + 1) s =
        (regexField after).1 :: regexLoopAux f (regexField after).2 := by
      show (match splitAtComma s with
        | none => []
        | some a => (regexField a).1 :: regexLoopAux f (regexField a).2) = _
      rw [hsp]
    rw [hL, regexLoopAux_canon f (regexField after).2 (by omega),
      ← regexLoopAux_canon (f + 1) (regexField after).2 (by omega)]

theorem splitAtComma_cons (X : List Char) : splitAtComma (',' :: X) = some X := by
  rw [show splitAtComma (',' :: X) =
      if (',' : Char) = ',' then some X else splitAtComma X from rfl, if_pos rfl]

theorem regexLoop_step_plain (fuel : Nat) (X Y : List Char)
    (hX : ∀ c ∈ X, c ≠ '"' ∧ c ≠ ',') (hf : (',' :: (X ++ ',' :: Y)).length < fuel) :
    regexLoopAux fuel (',' :: (X ++ ',' :: Y)) = X :: regexLoopAux fuel (',' :: Y) := by
  rw [regexLoopAux_step fuel _ (X ++ ',' :: Y) hf (splitAtComma_cons _),
    regexField_plain X hX Y]

theorem regexLoop_step_quoted (fuel : Nat) (P Y : List Char)
    (hP : ∀ c ∈ P, c ≠ '"')
    (hf : (',' :: (('"' :: P) ++ ('"' :: (',' :: Y)))).length < fuel) :
    regexLoopAux fuel (',' :: (('"' :: P) ++ ('"' :: (',' :: Y)))) =
      P :: regexLoopAux fuel (',' :: Y) := by
  rw [regexLoopAux_step fuel _ (('"' :: P) ++ ('"' :: (',' :: Y))) hf (splitAtComma_cons _),
    regexField_quoted P hP Y]

theorem regexLoop_step_last (fuel : Nat) (F : List Char)
    (hF : ∀ c ∈ F, c ≠ '"' ∧ c ≠ ',') (hf : (',' :: F).length < fuel) :
    regexLoopAux fuel (',' :: F) = [F] := by
  rw [regexLoopAux_step fuel _ F hf (splitAtComma_cons _), regexField_all F hF,
    regexLoopAux_nil]

theorem regexMatches_serialized (ID DATE CA P D ACC AMT : List Char) (hIDne : ID ≠ [])
    (hID : ∀ c ∈ ID, c ≠ '"' ∧ c ≠ ',') (hDATE : ∀ c ∈ DATE, c ≠ '"' ∧ c ≠ ',')
    (hCA : ∀ c ∈ CA, c ≠ '"' ∧ c ≠ ',') (hP : ∀ c ∈ P, c ≠ '"')
    (hD : ∀ c ∈ D, c ≠ '"') (hACC : ∀ c ∈ ACC, c ≠ '"' ∧ c ≠ ',')
    (hAMT : ∀ c ∈ AMT, c ≠ '"' ∧ c ≠ ',') :
    regexMatches (rowShape ID DATE CA P D ACC AMT) =
      some [ID, DATE, CA, P, D, ACC, AMT] := by
  match ID, hIDne, hID with
  | a :: ID2, _, hID =>
    show regexMatches ((a :: ID2) ++ ',' ::
        (DATE ++ ',' :: (CA ++ ',' :: rowQuoted P (rowQuoted D (ACC ++ ',' :: AMT))))) = _
    have hrw : regexMatches ((a :: ID2) ++ ',' ::
        (DATE ++ ',' :: (CA ++ ',' :: rowQuoted P (rowQuoted D (ACC ++ ',' :: AMT))))) =
        (if (regexField ((a :: ID2) ++ ',' ::
            (DATE ++ ',' :: (CA ++ ',' ::
              rowQuoted P (rowQuoted D (ACC ++ ',' :: AMT)))))).2.length =
            ((a :: ID2) ++ ',' :: (DATE ++ ',' :: (CA ++ ',' ::
              rowQuoted P (rowQuoted D (ACC ++ ',' :: AMT))))).length then none
        else some ((regexField ((a :: ID2) ++ ',' ::
            (DATE ++ ',' :: (CA ++ ',' ::
              rowQuoted P (rowQuoted D (ACC ++ ',' :: AMT)))))).1 ::
          regexLoopAux (((a :: ID2) ++ ',' :: (DATE ++ ',' :: (CA ++ ',' ::
              rowQuoted P (rowQuoted D (ACC ++ ',' :: AMT))))).length + 1)
            (regexField ((a :: ID2) ++ ',' ::
              (DATE ++ ',' :: (CA ++ ',' ::
                rowQuoted P (rowQuoted D (ACC ++ ',' :: AMT)))))).2)) := rfl
    rw [hrw, regexField_plain (a :: ID2) hID
      (DATE ++ ',' :: (CA ++ ',' :: rowQuoted P (rowQuoted D (ACC ++ ',' :: AMT))))]
    rw [if_neg (by simp; omega)]
    congr 1
    congr 1
    rw [regexLoop_step_plain _ DATE (CA ++ ',' :: rowQuoted P (rowQuoted D (ACC ++ ',' :: AMT)))
      hDATE (by simp [rowQuoted]; omega)]
    congr 1
    rw [regexLoop_step_plain _ CA (rowQuoted P (rowQuoted D (ACC ++ ',' :: AMT)))
      hCA (by simp [rowQuoted]; omega)]
    congr 1
    rw [show (',' :: rowQuoted P (rowQuoted D (ACC ++ ',' :: AMT))) =
      (',' :: (('"' :: P) ++ ('"' :: (',' :: rowQuoted D (ACC ++ ',' :: AMT))))) from rfl]
    rw [regexLoop_step_quoted _ P (rowQuoted D (ACC ++ ',' :: AMT)) hP
      (by simp [rowQuoted]; omega)]
    congr 1
    rw [show (',' :: rowQuoted D (ACC ++ ',' :: AMT)) =
      (',' :: (('"' :: D) ++ ('"' :: (',' :: (ACC ++ ',' :: AMT))))) from rfl]
    rw [regexLoop_step_quoted _ D (ACC ++ ',' :: AMT) hD (by simp [rowQuoted]; omega)]
    congr 1
    rw [regexLoop_step_plain _ ACC AMT hACC (by simp [rowQuoted]; omega)]
    congr 1
    rw [regexLoop_step_last _ AMT hAMT (by simp [rowQuoted]; omega)]

/-! ### Parsing one serialized row -/

theorem mk_data (s : String) : String.mk s.data = s := rfl

theorem head?_append_ne {α : Type} (X Y : List α) (hX : X ≠ []) :
    (X ++ Y).head? = X.head? := by
  cases X with
  | nil => exact absurd rfl hX
  | cons a as => rfl

theorem getLast?_append_ne {α : Type} (X Y : List α) (hY : Y ≠ []) :
    (X ++ Y).getLast? = Y.getLast? := by
  rw [← List.head?_reverse, ← List.head?_reverse, List.reverse_append,
    head?_append_ne _ _ (by simpa using hY)]

theorem getLast?_cons_ne {α : Type} (c : α) (l : List α) (h : l ≠ []) :
    (c :: l).getLast? = l.getLast? :=
  getLast?_append_ne [c] l h

theorem serializeRow_decomp (tx : Transaction) (s : Split)
    (hP : ∀ c ∈ (tx.payee.getD "").data, c ≠ '"')
    (hD : ∀ c ∈ (tx.description.getD "").data, c ≠ '"') :
    serializeRow tx s = rowShape tx.id.data tx.date.data (natToStr tx.createdAt).data
      (tx.payee.getD "").data (tx.description.getD "").data s.accountId.data
      (intToStr s.amount).data := by
  unfold serializeRow rowShape rowQuoted
  rw [escapeQuotes_no_quote _ hP, escapeQuotes_no_quote _ hD]
  simp [List.append_assoc]

theorem rowShape_getLast (ID DATE CA P D ACC AMT : List Char) (hAMT : AMT ≠ []) :
    (rowShape ID DATE CA P D ACC AMT).getLast? = AMT.getLast? := by
  unfold rowShape rowQuoted
  rw [getLast?_append_ne _ _ (by simp), getLast?_cons_ne _ _ (by simp),
    getLast?_append_ne _ _ (by simp), getLast?_cons_ne _ _ (by simp),
    getLast?_append_ne _ _ (by simp), getLast?_cons_ne _ _ (by simp),
    getLast?_append_ne _ _ (by simp), getLast?_cons_ne _ _ (by simp),
    getLast?_cons_ne _ _ (by simp), getLast?_append_ne _ _ (by simp),
    getLast?_cons_ne _ _ (by simp), getLast?_cons_ne _ _ (by simp),
    getLast?_append_ne _ _ (by simp), getLast?_cons_ne _ _ hAMT]

theorem parseDataRow_serialized (S : List Transaction) (tx : Transaction) (s : Split)
    (hidne : tx.id.data ≠ [])
    (hid : ∀ c ∈ tx.id.data, c ≠ '"' ∧ c ≠ ',')
    (hidw : ∀ c ∈ tx.id.data, jsWhitespace c = false)
    (hdate : ∀ c ∈ tx.date.data, c ≠ '"' ∧ c ≠ ',')
    (hpay : ∀ c ∈ (tx.payee.getD "").data, c ≠ '"')
    (hdesc : ∀ c ∈ (tx.description.getD "").data, c ≠ '"')
    (hacc : ∀ c ∈ s.accountId.data, c ≠ '"' ∧ c ≠ ',') :
    parseDataRow S (serializeRow tx s) =
      if S.any (fun t => t.id = tx.id) then
        some (S.map (fun t =>
          if t.id = tx.id then { t with splits := t.splits ++ [s] } else t))
      else
        some (S ++ [{ id := tx.id
                      date := tx.date
                      payee := some (tx.payee.getD "")
                      description := some (tx.description.getD "")
                      splits := [s]
                      createdAt := tx.createdAt }]) := by
  have hca : ∀ c ∈ (natToStr tx.createdAt).data, c ≠ '"' ∧ c ≠ ',' := by
    intro c hc
    rcases natToStr_chars tx.createdAt c hc with ⟨d, hd, rfl⟩
    have := digitChar_clean d hd
    exact ⟨this.2.1, this.1⟩
  have hamt : ∀ c ∈ (intToStr s.amount).data, c ≠ '"' ∧ c ≠ ',' := by
    intro c hc
    rcases intToStr_chars s.amount c hc with rfl | ⟨d, hd, rfl⟩
    · exact ⟨minus_clean.2.1, minus_clean.1⟩
    · have := digitChar_clean d hd
      exact ⟨this.2.1, this.1⟩
  rw [serializeRow_decomp tx s hpay hdesc]
  have hrowne : rowShape tx.id.data tx.date.data (natToStr tx.createdAt).data
      (tx.payee.getD "").data (tx.description.getD "").data s.accountId.data
      (intToStr s.amount).data ≠ [] := by
    unfold rowShape
    simp
  have htrim : jsTrim (rowShape tx.id.data tx.date.data (natToStr tx.createdAt).data
      (tx.payee.getD "").data (tx.description.getD "").data s.accountId.data
      (intToStr s.amount).data) =
      rowShape tx.id.data tx.date.data (natToStr tx.createdAt).data
        (tx.payee.getD "").data (tx.description.getD "").data s.accountId.data
        (intToStr s.amount).data := by
    apply jsTrim_eq_self
    · intro c hc
      match hID : tx.id.data, hidne with
      | a :: ID2, _ =>
        rw [hID] at hc
        have : (rowShape (a :: ID2) tx.date.data (natToStr tx.createdAt).data
            (tx.payee.getD "").data (tx.description.getD "").data s.accountId.data
            (intToStr s.amount).data).head? = some a := rfl
        rw [this] at hc
        cases hc
        apply hidw
        rw [hID]
        simp
    · intro c hc
      rw [rowShape_getLast _ _ _ _ _ _ _ (intToStr_ne_nil s.amount)] at hc
      have hmem : c ∈ (intToStr s.amount).data := by
        match hl : (intToStr s.amount).data, hc with
        | l, hc =>
          exact List.mem_of_mem_getLast? hc
      rcases intToStr_chars s.amount c hmem with rfl | ⟨d, hd, rfl⟩
      · exact minus_clean.2.2.2.2
      · exact (digitChar_clean d hd).2.2.2.2
  unfold parseDataRow
  rw [htrim, if_neg hrowne,
    regexMatches_serialized _ _ _ _ _ _ _ hidne hid hdate hca hpay hdesc hacc hamt]
  have hlen7 : ¬ (([tx.id.data, tx.date.data, (natToStr tx.createdAt).data,
      (tx.payee.getD "").data, (tx.description.getD "").data, s.accountId.data,
      (intToStr s.amount).data] : List (List Char)).length < 7) := by simp
  have hsplit_eta : ({ accountId := s.accountId, amount := s.amount } : Split) = s := rfl
  simp only [hlen7, if_false,
    charFields_serialized _ _ _ _ _ _ _ hid hdate hca hpay hdesc hacc hamt,
    List.map_cons, List.map_nil,
    cleanCell_no_quote tx.id.data (fun c hc => (hid c hc).1),
    cleanCell_no_quote tx.date.data (fun c hc => (hdate c hc).1),
    cleanCell_no_quote (natToStr tx.createdAt).data (fun c hc => (hca c hc).1),
    cleanCell_no_quote (tx.payee.getD "").data hpay,
    cleanCell_no_quote (tx.description.getD "").data hdesc,
    cleanCell_no_quote s.accountId.data (fun c hc => (hacc c hc).1),
    cleanCell_no_quote (intToStr s.amount).data (fun c hc => (hamt c hc).1),
    List.getD_cons_zero, List.getD_cons_succ, mk_data,
    strToInt_intToStr, strToNat_natToStr, hsplit_eta]

/-! ### Round-trip assembly -/

/-- Characters that survive in the unquoted CSV columns (id, date,
account id): no CSV metacharacters, no line breaks, no whitespace (the
parser trims each line). -/
def plainCharB (c : Char) : Bool :=
  decide (c ≠ ',' ∧ c ≠ '"' ∧ c ≠ '\n' ∧ c ≠ '\r') && !jsWhitespace c

/-- Characters that survive in the quoted columns (payee, description):
anything except a quote character and line breaks (commas are fine). -/
def textCharB (c : Char) : Bool :=
  decide (c ≠ '"' ∧ c ≠ '\n' ∧ c ≠ '\r')

/-- The transactions whose serialized form the parser can reconstruct:
nonempty id, plain id/date/account-id columns, present quote-free
line-break-free payee and description, and at least one split. -/
def cleanTx (tx : Transaction) : Bool :=
  decide (tx.id.data ≠ []) && tx.id.data.all plainCharB && tx.date.data.all plainCharB &&
  tx.payee.isSome && (tx.payee.getD "").data.all textCharB &&
  tx.description.isSome && (tx.description.getD "").data.all textCharB &&
  decide (tx.splits ≠ []) && tx.splits.all (fun s => s.accountId.data.all plainCharB)

theorem rowShape_chars (ID DATE CA P D ACC AMT : List Char) :
    ∀ c ∈ rowShape ID DATE CA P D ACC AMT,
      c ∈ ID ∨ c ∈ DATE ∨ c ∈ CA ∨ c ∈ P ∨ c ∈ D ∨ c ∈ ACC ∨ c ∈ AMT ∨
        c = ',' ∨ c = '"' := by
  intro c hc
  simp only [rowShape, rowQuoted, List.mem_append, List.mem_cons] at hc
  tauto

theorem option_some_getD (o : Option String) (ho : o.isSome = true) :
    some (o.getD "") = o := by
  cases o with
  | none => cases ho
  | some v => rfl

/-- Unpack the Boolean cleanliness predicate into the pointwise facts the
row lemmas consume. -/
theorem cleanTx_spec (tx : Transaction) (h : cleanTx tx = true) :
    tx.id.data ≠ [] ∧
    (∀ c ∈ tx.id.data, (c ≠ '"' ∧ c ≠ ',') ∧ jsWhitespace c = false ∧
      c ≠ '\n' ∧ c ≠ '\r') ∧
    (∀ c ∈ tx.date.data, (c ≠ '"' ∧ c ≠ ',') ∧ c ≠ '\n' ∧ c ≠ '\r') ∧
    tx.payee.isSome = true ∧
    (∀ c ∈ (tx.payee.getD "").data, c ≠ '"' ∧ c ≠ '\n' ∧ c ≠ '\r') ∧
    tx.description.isSome = true ∧
    (∀ c ∈ (tx.description.getD "").data, c ≠ '"' ∧ c ≠ '\n' ∧ c ≠ '\r') ∧
    tx.splits ≠ [] ∧
    (∀ s ∈ tx.splits, ∀ c ∈ s.accountId.data,
      (c ≠ '"' ∧ c ≠ ',') ∧ c ≠ '\n' ∧ c ≠ '\r') := by
  simp only [cleanTx, Bool.and_eq_true, decide_eq_true_eq, List.all_eq_true,
    plainCharB, textCharB, Bool.not_eq_true'] at h
  obtain ⟨⟨⟨⟨⟨⟨⟨⟨h1, h2⟩, h3⟩, h4⟩, h5⟩, h6⟩, h7⟩, h8⟩, h9⟩ := h
  refine ⟨h1, ?_, ?_, h4, ?_, h6, ?_, h8, ?_⟩
  · intro c hc
    have := h2 c hc
    tauto
  · intro c hc
    have := h3 c hc
    tauto
  · intro c hc
    exact h5 c hc
  · intro c hc
    exact h7 c hc
  · intro s hs c hc
    have := h9 s hs c hc
    tauto

theorem serializeRow_no_newline (tx : Transaction) (s : Split)
    (hclean : cleanTx tx = true) (hs : s ∈ tx.splits) :
    ∀ c ∈ serializeRow tx s, c ≠ '\n' ∧ c ≠ '\r' := by
  obtain ⟨h1, h2, h3, h4, h5, h6, h7, h8, h9⟩ := cleanTx_spec tx hclean
  intro c hc
  rw [serializeRow_decomp tx s (fun c hc => (h5 c hc).1) (fun c hc => (h7 c hc).1)] at hc
  rcases rowShape_chars _ _ _ _ _ _ _ c hc with
    hm | hm | hm | hm | hm | hm | hm | rfl | rfl
  · exact ⟨(h2 c hm).2.2.1, (h2 c hm).2.2.2⟩
  · exact ⟨(h3 c hm).2.1, (h3 c hm).2.2⟩
  · rcases natToStr_chars _ c hm with ⟨d, hd, rfl⟩
    exact ⟨(digitChar_clean d hd).2.2.1, (digitChar_clean d hd).2.2.2.1⟩
  · exact ⟨(h5 c hm).2.1, (h5 c hm).2.2⟩
  · exact ⟨(h7 c hm).2.1, (h7 c hm).2.2⟩
  · exact ⟨(h9 s hs c hm).2.1, (h9 s hs c hm).2.2⟩
  · rcases intToStr_chars _ c hm with rfl | ⟨d, hd, rfl⟩
    · exact ⟨minus_clean.2.2.1, minus_clean.2.2.2.1⟩
    · exact ⟨(digitChar_clean d hd).2.2.1, (digitChar_clean d hd).2.2.2.1⟩
  · exact ⟨by decide, by decide⟩
  · exact ⟨by decide, by decide⟩

theorem parseRows_appendSplits (tx : Transaction)
    (hidne : tx.id.data ≠ [])
    (hid : ∀ c ∈ tx.id.data, c ≠ '"' ∧ c ≠ ',')
    (hidw : ∀ c ∈ tx.id.data, jsWhitespace c = false)
    (hdate : ∀ c ∈ tx.date.data, c ≠ '"' ∧ c ≠ ',')
    (hpay : ∀ c ∈ (tx.payee.getD "").data, c ≠ '"')
    (hdesc : ∀ c ∈ (tx.description.getD "").data, c ≠ '"') :
    ∀ ss : List Split, (∀ s ∈ ss, ∀ c ∈ s.accountId.data, c ≠ '"' ∧ c ≠ ',') →
    ∀ (S1 : List Transaction) (t : Transaction),
      (∀ u ∈ S1, u.id ≠ tx.id) → t.id = tx.id →
      parseRows (S1 ++ [t]) (ss.map (serializeRow tx)) =
        some (S1 ++ [{ t with splits := t.splits ++ ss }]) := by
  intro ss
  induction ss with
  | nil =>
    intro _ S1 t hS1 ht
    simp [parseRows]
  | cons s ss ih =>
    intro hss S1 t hS1 ht
    show parseRows (S1 ++ [t]) (serializeRow tx s :: ss.map (serializeRow tx)) = _
    simp only [parseRows]
    rw [parseDataRow_serialized (S1 ++ [t]) tx s hidne hid hidw hdate hpay hdesc
      (hss s (by simp))]
    rw [if_pos (by
      rw [List.any_eq_true]
      exact ⟨t, by simp, by simp [ht]⟩)]
    have hmap : (S1 ++ [t]).map (fun u =>
        if u.id = tx.id then { u with splits := u.splits ++ [s] } else u) =
        S1 ++ [{ t with splits := t.splits ++ [s] }] := by
      rw [List.map_append]
      congr 1
      · calc S1.map (fun u =>
            if u.id = tx.id then { u with splits := u.splits ++ [s] } else u)
            = S1.map id := List.map_congr_left (fun u hu => if_neg (hS1 u hu))
          _ = S1 := List.map_id S1
      · simp [ht]
    rw [hmap]
    show parseRows (S1 ++ [{ t with splits := t.splits ++ [s] }])
      (ss.map (serializeRow tx)) = _
    rw [ih (fun x hx => hss x (by simp [hx])) S1 _ hS1 (by simp [ht])]
    simp

theorem parseRows_tx (S : List Transaction) (tx : Transaction)
    (hclean : cleanTx tx = true) (hS : ∀ u ∈ S, u.id ≠ tx.id) :
    parseRows S (tx.splits.map (serializeRow tx)) = some (S ++ [tx]) := by
  obtain ⟨h1, h2, h3, h4, h5, h6, h7, h8, h9⟩ := cleanTx_spec tx hclean
  have hid : ∀ c ∈ tx.id.data, c ≠ '"' ∧ c ≠ ',' := fun c hc => (h2 c hc).1
  have hidw : ∀ c ∈ tx.id.data, jsWhitespace c = false := fun c hc => (h2 c hc).2.1
  have hdate : ∀ c ∈ tx.date.data, c ≠ '"' ∧ c ≠ ',' := fun c hc => (h3 c hc).1
  have hpay : ∀ c ∈ (tx.payee.getD "").data, c ≠ '"' := fun c hc => (h5 c hc).1
  have hdesc : ∀ c ∈ (tx.description.getD "").data, c ≠ '"' := fun c hc => (h7 c hc).1
  match hsp : tx.splits, h8 with
  | s0 :: rest, _ =>
    show parseRows S (serializeRow tx s0 :: rest.map (serializeRow tx)) = _
    simp only [parseRows]
    rw [parseDataRow_serialized S tx s0 h1 hid hidw hdate hpay hdesc
      (fun c hc => (h9 s0 (by rw [hsp]; simp) c hc).1)]
    rw [if_neg (by
      rw [List.any_eq_true]
      rintro ⟨u, hu, hu2⟩
      exact hS u hu (by simpa using hu2))]
    show parseRows (S ++ [({ id := tx.id, date := tx.date, payee := some (tx.payee.getD ""), description := some (tx.description.getD ""), splits := [s0], createdAt := tx.createdAt } : Transaction)]) (rest.map (serializeRow tx)) = _
    rw [parseRows_appendSplits tx h1 hid hidw hdate hpay hdesc rest
      (fun s hsm c hc => (h9 s (by rw [hsp]; simp [hsm]) c hc).1) S
      ({ id := tx.id, date := tx.date, payee := some (tx.payee.getD ""), description := some (tx.description.getD ""), splits := [s0], createdAt := tx.createdAt } : Transaction)
      hS rfl]
    have hrec : ({ id := tx.id, date := tx.date, payee := some (tx.payee.getD ""),
                   description := some (tx.description.getD ""), splits := [s0] ++ rest,
                   createdAt := tx.createdAt } : Transaction) = tx := by
      rw [option_some_getD _ h4, option_some_getD _ h6]
      rw [show [s0] ++ rest = s0 :: rest from rfl, ← hsp]
    rw [show ({ id := tx.id, date := tx.date, payee := some (tx.payee.getD ""),
                description := some (tx.description.getD ""), splits := [s0],
                createdAt := tx.createdAt } : Transaction).splits = [s0] from rfl]
    rw [hrec]

theorem parseRows_serialized_all (txs : List Transaction)
    (hclean : ∀ tx ∈ txs, cleanTx tx = true)
    (hids : (txs.map Transaction.id).Nodup) :
    ∀ S : List Transaction, (∀ tx ∈ txs, ∀ u ∈ S, u.id ≠ tx.id) →
      parseRows S ((txs.map (fun tx => tx.splits.map (serializeRow tx))).flatten) =
        some (S ++ txs) := by
  induction txs with
  | nil => intro S _; simp [parseRows]
  | cons tx rest ih =>
    intro S hS
    rw [show ((tx :: rest).map (fun tx => tx.splits.map (serializeRow tx))).flatten =
      tx.splits.map (serializeRow tx) ++
        (rest.map (fun tx => tx.splits.map (serializeRow tx))).flatten from by simp]
    rw [parseRows_append]
    rw [parseRows_tx S tx (hclean tx (by simp)) (hS tx (by simp))]
    show parseRows (S ++ [tx]) ((rest.map (fun tx => tx.splits.map (serializeRow tx))).flatten) = _
    rw [ih (fun t ht => hclean t (by simp [ht])) (by simpa using hids.of_cons) (S ++ [tx])
      (by
        intro t ht u hu
        rcases List.mem_append.1 hu with hu | hu
        · exact hS t (by simp [ht]) u hu
        · have : u = tx := by simpa using hu
          subst this
          intro hcon
          simp only [List.map_cons, List.nodup_cons] at hids
          exact hids.1 (by
            rw [hcon]
            exact List.mem_map.2 ⟨t, ht, rfl⟩))]
    simp

theorem insertSorted_perm (x : Transaction) (l : List Transaction) :
    (insertSorted x l).Perm (x :: l) := by
  induction l with
  | nil => exact List.Perm.refl _
  | cons y ys ih =>
    show (if x.createdAt ≤ y.createdAt then y :: insertSorted x ys else x :: y :: ys).Perm _
    split
    · exact (List.Perm.cons y ih).trans (List.Perm.swap x y ys)
    · exact List.Perm.refl _

theorem sortByCreatedAtDesc_perm (l : List Transaction) :
    (sortByCreatedAtDesc l).Perm l := by
  have key : ∀ (l acc : List Transaction),
      (l.foldl (fun a x => insertSorted x a) acc).Perm (acc ++ l) := by
    intro l
    induction l with
    | nil => intro acc; simp
    | cons x xs ih =>
      intro acc
      show ((xs.foldl (fun a x => insertSorted x a) (insertSorted x acc))).Perm _
      refine (ih (insertSorted x acc)).trans ?_
      refine (List.Perm.append_right xs (insertSorted_perm x acc)).trans ?_
      show (x :: (acc ++ xs)).Perm (acc ++ x :: xs)
      exact List.perm_middle.symm
  simpa using key l []

/-- C1 amended: the CSV round trip reproduces the transaction list up to
permutation (the parse result is re-sorted by `createdAt`), for every
transaction list whose transactions the format can represent: distinct
ids; nonempty id; id, date and account ids free of quotes, commas, line
breaks and whitespace; payee and description present and free of quotes
and line breaks (commas in them survive); and at least one split per
transaction.  Quote characters or line breaks in payee/description, or
absent payees, are lost (see the counterexample). -/
theorem C1_roundtrip_amended (txs : List Transaction)
    (hclean : ∀ tx ∈ txs, cleanTx tx = true)
    (hids : (txs.map Transaction.id).Nodup) :
    ∃ res, parseTransactionsFromCSV (serializeTransactionsToCSV txs) = some res ∧
      res.Perm txs := by
  have hrowsclean : ∀ r ∈ (txs.map (fun tx => tx.splits.map (serializeRow tx))).flatten,
      ∀ c ∈ r, c ≠ '\n' ∧ c ≠ '\r' := by
    intro r hr
    rw [List.mem_flatten] at hr
    rcases hr with ⟨rowsOf, hrows, hrmem⟩
    rcases List.mem_map.1 hrows with ⟨tx, htx, rfl⟩
    rcases List.mem_map.1 hrmem with ⟨s, hs, rfl⟩
    exact serializeRow_no_newline tx s (hclean tx htx) hs
  match txs, hclean, hids with
  | [], _, _ =>
    refine ⟨[], ?_, List.Perm.refl _⟩
    decide
  | t0 :: rest, hclean, hids =>
    have h8 := (cleanTx_spec t0 (hclean t0 (by simp))).2.2.2.2.2.2.2.1
    have hne : (((t0 :: rest).map (fun tx => tx.splits.map (serializeRow tx))).flatten) ≠ [] := by
      match hsp : t0.splits, h8 with
      | s0 :: srest, _ => simp [hsp]
    refine ⟨sortByCreatedAtDesc (t0 :: rest), ?_, sortByCreatedAtDesc_perm _⟩
    show parseTransactionsFromCSV (String.mk (csvHeader ++ '\n' ::
      joinLines (((t0 :: rest).map (fun tx => tx.splits.map (serializeRow tx))).flatten))) = _
    unfold parseTransactionsFromCSV
    rw [show (String.mk (csvHeader ++ '\n' ::
        joinLines (((t0 :: rest).map (fun tx => tx.splits.map (serializeRow tx))).flatten))).data =
      csvHeader ++ '\n' ::
        joinLines (((t0 :: rest).map (fun tx => tx.splits.map (serializeRow tx))).flatten)
      from rfl]
    rw [splitLines_serialized _ (by
      intro r hr c hc
      exact hrowsclean r (by simpa using hr) c hc)]
    rw [if_neg hne]
    show (match parseRows []
        (((t0 :: rest).map (fun tx => tx.splits.map (serializeRow tx))).flatten) with
      | none => none
      | some txs2 => some (sortByCreatedAtDesc txs2)) = _
    rw [parseRows_serialized_all (t0 :: rest) hclean hids []
      (by intro tx _ u hu; cases hu)]
    show some (sortByCreatedAtDesc ([] ++ t0 :: rest)) = _
    rw [List.nil_append]

/-- A concrete clean transaction list: two transactions with distinct ids,
one payee containing a comma. -/
def c1WitnessTxs : List Transaction :=
  [{ id := "t1", date := "2024-01-02", payee := some "Acme, Inc", description := some "lunch",
     splits := [{ accountId := "acc1", amount := -5 }, { accountId := "acc2", amount := 5 }],
     createdAt := 7 },
   { id := "t2", date := "2024-01-03", payee := some "", description := some "x",
     splits := [{ accountId := "acc1", amount := 3 }],
     createdAt := 9 }]

/-- Witness for the amended C1 round trip: the concrete two-transaction
list satisfies both hypotheses and the round trip reproduces it up to
permutation. -/
theorem C1_witness :
    (∀ tx ∈ c1WitnessTxs, cleanTx tx = true) ∧
    (c1WitnessTxs.map Transaction.id).Nodup ∧
    ∃ res, parseTransactionsFromCSV (serializeTransactionsToCSV c1WitnessTxs) = some res ∧
      res.Perm c1WitnessTxs :=
  ⟨by decide, by decide, C1_roundtrip_amended c1WitnessTxs (by decide) (by decide)⟩

/-- A transaction whose payee contains a quote character. -/
def c1QuoteTx : Transaction :=
  { id := "q1", date := "2024-01-02", payee := some "a\"b", description := some "d",
    splits := [{ accountId := "acc1", amount := 5 }],
    createdAt := 3 }

/-- Counterexample to the literal C1: a quote character inside the payee
does not survive the round trip.  The serializer escapes the quote to a
doubled quote, but the char-loop re-split of the parser strips every
quote before cleanCell would unescape, so the payee comes back with the
quote deleted and the result is not a permutation of the input. -/
theorem C1_counterexample :
    parseTransactionsFromCSV (serializeTransactionsToCSV [c1QuoteTx]) =
      some [{ c1QuoteTx with payee := some "ab" }] ∧
    ¬ ([{ c1QuoteTx with payee := some "ab" }].Perm [c1QuoteTx]) := by
  decide

end LedgerFlow
